import Mathlib

/-!
Shallow embedding of the `lox` expression-language front end (scanner,
recursive-descent parser, tree-walking evaluator) from the Rust sources
`src/scanner.rs`, `src/parser.rs`, `src/ast.rs`, `src/interpreter.rs`.

Modelling conventions used throughout this development:

* Rust `f64` values are modelled as `Rat` (exact rationals).  Every concrete
  number appearing in a theorem below is a small integer or a one-digit
  decimal, all of which `f64` represents exactly, so the rational model and
  IEEE doubles agree on every computation these theorems perform.
* Rust source strings are modelled as their character sequences
  (`List Char`); `String::len` (a UTF-8 *byte* count) is modelled by
  `byteLen`, which sums `Char.utf8Size`, exactly as Rust counts bytes.
* Code that can panic (`unwrap`, slice indexing) is modelled in `Option`,
  with `none` standing for a Rust panic; the parser additionally records
  which kind of panic occurred (see `PanicKind`).
* Unbounded `while` loops and the mutually recursive parser rules are
  modelled with an explicit fuel parameter (structural recursion on `Nat`)
  so every definition computes by kernel reduction.  Each concrete run in
  this file is given ample fuel, and fuel exhaustion is reported by a value
  (`PRes.fuelOut`) distinct from every panic and error outcome.
-/

namespace Lox

/-- Modelled from the spec: the repository's `src/token.rs` is absent from
the sources (only `mod token;` and its users remain), so the token kind
enumeration follows spec §3: single/double-character punctuation and
operators, the fixed keyword set, `identifier`, `string`, `number` and the
end-of-input marker. -/
inductive TokenType where
  | LeftParen | RightParen | LeftBrace | RightBrace
  | Comma | Dot | Minus | Plus | Semicolon | Slash | Star
  | Bang | BangEqual | Equal | EqualEqual
  | Greater | GreaterEqual | Less | LessEqual
  | Identifier | String | Number
  | And | Class | Else | False | Fun | For | If | Nil
  | Or | Print | Return | Super | This | True | Var | While
  | Eof
deriving DecidableEq

/-- Modelled from the spec: literal payloads attached to tokens and stored
in AST `Literal` nodes (spec §3); the five variants are exactly the ones
`interpreter.rs` and `parser.rs` construct and match on
(`String`, `Number`, `True`, `False`, `Nil`).  `Number` carries a `Rat`
modelling the Rust `f64`. -/
inductive Literal where
  | String (value : String)
  | Number (value : Rat)
  | True
  | False
  | Nil
deriving DecidableEq

/-- Modelled from the spec: the immutable token record of spec §3 —
`kind`, exact source `lexeme`, optional literal payload, and 1-based
source `line`; field names follow the Rust users (`token.token_type`,
`token.lexeme`, `token.literal`, `token.line`). -/
structure Token where
  token_type : TokenType
  lexeme : String
  literal : Option Literal
  line : Nat
deriving DecidableEq

/-- Modelled from the spec: the fixed keyword table consulted by
`Scanner::identifier` (`text.try_into().unwrap_or(TokenType::Identifier)`);
spec §3 fixes the keyword set. -/
def keywordLookup (s : String) : TokenType :=
  match s with
  | "and" => TokenType.And
  | "class" => TokenType.Class
  | "else" => TokenType.Else
  | "false" => TokenType.False
  | "fun" => TokenType.Fun
  | "for" => TokenType.For
  | "if" => TokenType.If
  | "nil" => TokenType.Nil
  | "or" => TokenType.Or
  | "print" => TokenType.Print
  | "return" => TokenType.Return
  | "super" => TokenType.Super
  | "this" => TokenType.This
  | "true" => TokenType.True
  | "var" => TokenType.Var
  | "while" => TokenType.While
  | _ => TokenType.Identifier

/-- Model of Rust `str::parse::<f64>` on the numeral shapes this program
ever feeds it (a nonempty digit run, optionally followed by `.` and a
nonempty digit run): the exact decimal value as a rational.  Any other
shape yields `none`, modelling a `parse` failure (whose `unwrap` would
panic).  `f64` rounding is not modelled; every numeral evaluated by a
theorem in this file is exactly representable in `f64`. -/
def parseFloatQ (cs : List Char) : Option Rat :=
  let intPart := cs.takeWhile Char.isDigit
  let rest := cs.dropWhile Char.isDigit
  if intPart = [] then none
  else
    match rest with
    | [] => some ((intPart.foldl (fun a c => 10 * a + (c.toNat - 48)) 0 : Nat) : Rat)
    | '.' :: frac =>
      if frac ≠ [] ∧ frac.all Char.isDigit then
        some (((intPart.foldl (fun a c => 10 * a + (c.toNat - 48)) 0 : Nat) : Rat)
          + ((frac.foldl (fun a c => 10 * a + (c.toNat - 48)) 0 : Nat) : Rat) / (10 ^ frac.length : Nat))
      else none
    | _ => none

/-- Specification of the lexeme `Scanner::number` consumes from the text
whose first character starts the numeral: a maximal digit run, plus a `.`
and a second maximal digit run only when the `.` is immediately followed
by a digit (a trailing `.` is left unconsumed). -/
def numeralSpan (cs : List Char) : List Char :=
  let ds := cs.takeWhile Char.isDigit
  match cs.dropWhile Char.isDigit with
  | '.' :: rest =>
    if rest.takeWhile Char.isDigit = [] then ds
    else ds ++ '.' :: rest.takeWhile Char.isDigit
  | _ => ds

/-- Model of Rust `format!("{:.1}", v)` on `f64`: fixed-point with exactly
one fractional digit, rounding half to even.  Exact for every value this
file ever formats (small integers, where no rounding occurs). -/
def fmtFixed1 (q : Rat) : String :=
  let neg := decide (q.num < 0)
  let scaled : Nat := q.num.natAbs * 10
  let f : Nat := scaled / q.den
  let r : Nat := scaled % q.den
  let n : Nat :=
    if q.den < 2 * r then f + 1
    else if 2 * r < q.den then f
    else if f % 2 = 0 then f else f + 1
  (if neg then "-" else "") ++ toString (n / 10) ++ "." ++ toString (n % 10)

/-- Expression AST of `src/ast.rs` (`Expr`): `Binary`, `Grouping`,
`Literal`, `Unary`; operator fields retain the whole `Token`. -/
inductive Expr where
  | Binary (left : Expr) (operator : Token) (right : Expr)
  | Grouping (inner : Expr)
  | Literal (value : Literal)
  | Unary (operator : Token) (operand : Expr)
deriving DecidableEq

/-- Display projection of `src/ast.rs` (`impl Display for Expr`).
The source formats `Literal::Number(v)` with `{:.1}` and `Literal::String`
verbatim; its match lists no arms for `True`/`False`/`Nil` (the match is
non-exhaustive as written), so those missing arms are mapped to the empty
string here — no theorem in this file evaluates them. -/
def display : Expr → String
  | Expr.Binary left op right =>
    "(" ++ op.lexeme ++ " " ++ display left ++ " " ++ display right ++ ")"
  | Expr.Grouping e => "(group " ++ display e ++ ")"
  | Expr.Literal (Literal.String v) => v
  | Expr.Literal (Literal.Number v) => fmtFixed1 v
  | Expr.Literal Literal.True => ""
  | Expr.Literal Literal.False => ""
  | Expr.Literal Literal.Nil => ""
  | Expr.Unary op right => "(" ++ op.lexeme ++ " " ++ display right ++ ")"

/-- Runtime values of `src/interpreter.rs` (`IntrResult`). -/
inductive IntrResult where
  | Number (value : Rat)
  | String (value : String)
  | Bool (value : Bool)
  | None
deriving DecidableEq

/-- Runtime errors of `src/interpreter.rs` (`IntrError`). -/
inductive IntrError where
  | Runtime (token : Token) (message : String)
  | Unsupported (token : Token)
  | NotImplemented (token : Token)
deriving DecidableEq

namespace Interpreter

/-- Evaluator of `src/interpreter.rs` (`Interpreter::evaluate`): a pure
recursive tree walk; the big tuple match over
`(operator.token_type, left, right)` is transcribed arm for arm in source
order. -/
def evaluate : Expr → Except IntrError IntrResult
  | Expr.Binary l op r =>
    match evaluate l with
    | Except.error e => Except.error e
    | Except.ok left =>
      match evaluate r with
      | Except.error e => Except.error e
      | Except.ok right =>
        match op.token_type, left, right with
        | TokenType.Minus, IntrResult.Number a, IntrResult.Number b =>
          Except.ok (IntrResult.Number (a - b))
        | TokenType.Slash, IntrResult.Number a, IntrResult.Number b =>
          Except.ok (IntrResult.Number (a / b))
        | TokenType.Star, IntrResult.Number a, IntrResult.Number b =>
          Except.ok (IntrResult.Number (a * b))
        | TokenType.Plus, IntrResult.Number a, IntrResult.Number b =>
          Except.ok (IntrResult.Number (a + b))
        | TokenType.Plus, IntrResult.String a, IntrResult.String b =>
          Except.ok (IntrResult.String (a ++ b))
        | TokenType.Greater, IntrResult.Number a, IntrResult.Number b =>
          Except.ok (IntrResult.Bool (decide (a > b)))
        | TokenType.GreaterEqual, IntrResult.Number a, IntrResult.Number b =>
          Except.ok (IntrResult.Bool (decide (a ≥ b)))
        | TokenType.Less, IntrResult.Number a, IntrResult.Number b =>
          Except.ok (IntrResult.Bool (decide (a < b)))
        | TokenType.LessEqual, IntrResult.Number a, IntrResult.Number b =>
          Except.ok (IntrResult.Bool (decide (a ≤ b)))
        | TokenType.EqualEqual, IntrResult.Number a, IntrResult.Number b =>
          Except.ok (IntrResult.Bool (decide (a = b)))
        | TokenType.EqualEqual, IntrResult.String a, IntrResult.String b =>
          Except.ok (IntrResult.Bool (decide (a = b)))
        | TokenType.EqualEqual, IntrResult.None, IntrResult.None =>
          Except.ok (IntrResult.Bool true)
        | TokenType.BangEqual, IntrResult.Number a, IntrResult.Number b =>
          Except.ok (IntrResult.Bool (decide (a = b)))
        | TokenType.BangEqual, IntrResult.String a, IntrResult.String b =>
          Except.ok (IntrResult.Bool (decide (a = b)))
        | _, _, _ => Except.error (IntrError.Unsupported op)
  | Expr.Grouping e => evaluate e
  | Expr.Unary op e =>
    match evaluate e with
    | Except.error err => Except.error err
    | Except.ok right =>
      match op.token_type, right with
      | TokenType.Bang, IntrResult.Number n => Except.ok (IntrResult.Bool (decide (n > 0)))
      | TokenType.Bang, IntrResult.Bool v => Except.ok (IntrResult.Bool (!v))
      | TokenType.Bang, IntrResult.None => Except.ok (IntrResult.Bool false)
      | TokenType.Bang, _ => Except.ok (IntrResult.Bool true)
      | TokenType.Minus, IntrResult.Number n => Except.ok (IntrResult.Number (-n))
      | _, _ => Except.error (IntrError.Unsupported op)
  | Expr.Literal lit =>
    match lit with
    | Literal.String v => Except.ok (IntrResult.String v)
    | Literal.Number n => Except.ok (IntrResult.Number n)
    | Literal.True => Except.ok (IntrResult.Bool true)
    | Literal.False => Except.ok (IntrResult.Bool false)
    | Literal.Nil => Except.ok IntrResult.None

end Interpreter

/-- Scanner state of `src/scanner.rs` (`struct Scanner`): the source text
(as its character sequence), the accumulated tokens, the `start` and
`current` cursors and the 1-based `line` counter. -/
structure ScanState where
  source : List Char
  tokens : List Token
  start : Nat
  current : Nat
  line : Nat
deriving DecidableEq

/-- Model of Rust `String::len`: the number of UTF-8 bytes of the text.
The scanner compares its character cursor against this byte count
(`Scanner::is_at_end`), which is the byte/char confusion at the heart of
claim C4. -/
def byteLen (cs : List Char) : Nat := (cs.map Char.utf8Size).sum

namespace Scanner

/-- Rust `Scanner::is_at_end`: `self.current >= self.source.len()` — the
char cursor compared against the byte length. -/
def is_at_end (s : ScanState) : Bool := byteLen s.source ≤ s.current

/-- Rust `Scanner::advance`: `self.source.chars().nth(self.current).unwrap()`
then `self.current += 1`; `none` models the `unwrap` panic when the char
cursor is past the last character. -/
def advance (s : ScanState) : Option (Char × ScanState) :=
  match s.source[s.current]? with
  | none => none
  | some c => some (c, { s with current := s.current + 1 })

/-- Rust `Scanner::match_second`: conditional one-character lookahead that
consumes the character only when it equals `expected`. -/
def match_second (expected : Char) (s : ScanState) : Option (Bool × ScanState) :=
  if is_at_end s then some (false, s)
  else
    match s.source[s.current]? with
    | none => none
    | some c =>
      if c ≠ expected then some (false, s)
      else some (true, { s with current := s.current + 1 })

/-- Rust `Scanner::peek`: `'\0'` at end of input, otherwise the current
character (`none` models the `unwrap` panic). -/
def peek (s : ScanState) : Option Char :=
  if is_at_end s then some '\x00'
  else s.source[s.current]?

/-- Rust `Scanner::peek_next`: `'\0'` when `current + 1` reaches the byte
length, otherwise the character after the current one. -/
def peek_next (s : ScanState) : Option Char :=
  if byteLen s.source ≤ s.current + 1 then some '\x00'
  else s.source[s.current + 1]?

/-- Model of the Rust byte-range slice `&self.source[a..b]` at char
positions: for ASCII text (where byte and char positions coincide — the
domain of every positive theorem below) this is exactly the Rust slice. -/
def sliceLexeme (cs : List Char) (a b : Nat) : String :=
  String.mk ((cs.drop a).take (b - a))

/-- Rust `Scanner::add_token`: push a token whose lexeme is
`&self.source[self.start..self.current]`. -/
def add_token (tt : TokenType) (lit : Option Literal) (s : ScanState) : ScanState :=
  { s with tokens := s.tokens ++
      [{ token_type := tt, lexeme := sliceLexeme s.source s.start s.current,
         literal := lit, line := s.line }] }

/-- Loop of Rust `Scanner::identifier`:
`while self.peek().is_alphanumeric() { self.advance(); }`.  The fuel
argument only bounds the iteration count; `byteLen + 1` can never be
exhausted because each iteration advances the cursor.  Rust
`char::is_alphanumeric` is Unicode-aware; the model uses the ASCII
predicate, with which it agrees on every ASCII source. -/
def identifierLoop : Nat → ScanState → Option ScanState
  | 0, _ => none
  | fuel + 1, s =>
    if byteLen s.source ≤ s.current then some s
    else
      match s.source[s.current]? with
      | none => none
      | some c =>
        if c.isAlphanum then identifierLoop fuel { s with current := s.current + 1 }
        else some s

/-- Rust `Scanner::identifier`: consume the alphanumeric run, look the
lexeme up in the keyword table, and push the token. -/
def identifier (s : ScanState) : Option ScanState :=
  match identifierLoop (byteLen s.source + 1) s with
  | none => none
  | some s1 =>
    some (add_token (keywordLookup (sliceLexeme s1.source s1.start s1.current)) none s1)

/-- Digit-run loop of Rust `Scanner::number`:
`while self.peek().is_digit(10) { self.advance(); }` (`is_digit(10)` is
ASCII-only in Rust as well). -/
def digitsLoop : Nat → ScanState → Option ScanState
  | 0, _ => none
  | fuel + 1, s =>
    if byteLen s.source ≤ s.current then some s
    else
      match s.source[s.current]? with
      | none => none
      | some c =>
        if c.isDigit then digitsLoop fuel { s with current := s.current + 1 }
        else some s

/-- Tail of Rust `Scanner::number`: parse the consumed lexeme
(`.parse().unwrap()`, `none` modelling a parse-failure panic) and push the
number token with its literal payload. -/
def numberFinish (s : ScanState) : Option ScanState :=
  match parseFloatQ ((s.source.drop s.start).take (s.current - s.start)) with
  | none => none
  | some v => some (add_token TokenType.Number (some (Literal.Number v)) s)

/-- Rust `Scanner::number`: a maximal digit run, then one `.` only when it
is followed by another digit (checked with `peek`/`peek_next`, in the
source's short-circuit order), then the fractional digit run. -/
def number (s : ScanState) : Option ScanState :=
  match digitsLoop (byteLen s.source + 1) s with
  | none => none
  | some s1 =>
    match peek s1 with
    | none => none
    | some c =>
      if c = '.' then
        match peek_next s1 with
        | none => none
        | some c2 =>
          if c2.isDigit then
            match advance s1 with
            | none => none
            | some (_, s2) =>
              match digitsLoop (byteLen s2.source + 1) s2 with
              | none => none
              | some s3 => numberFinish s3
          else numberFinish s1
      else numberFinish s1

/-- Loop of Rust `Scanner::string`:
`while self.peek() != '"' && !self.is_at_end()`, counting embedded
newlines. -/
def stringLoop : Nat → ScanState → Option ScanState
  | 0, _ => none
  | fuel + 1, s =>
    if byteLen s.source ≤ s.current then some s
    else
      match s.source[s.current]? with
      | none => none
      | some c =>
        if c = '"' then some s
        else
          if c = '\n' then stringLoop fuel { s with current := s.current + 1, line := s.line + 1 }
          else stringLoop fuel { s with current := s.current + 1 }

/-- Rust `Scanner::string`: scan to the closing quote; an unterminated
string returns silently with no token (the source's `TODO` gap); otherwise
consume the quote and push the token whose literal strips both quotes
(`&self.source[self.start + 1..self.current - 1]`). -/
def string (s : ScanState) : Option ScanState :=
  match stringLoop (byteLen s.source + 1) s with
  | none => none
  | some s1 =>
    if is_at_end s1 then some s1
    else
      match advance s1 with
      | none => none
      | some (_, s2) =>
        some (add_token TokenType.String
          (some (Literal.String (String.mk
            ((s2.source.drop (s2.start + 1)).take (s2.current - 1 - (s2.start + 1)))))) s2)

/-- Line-comment loop of Rust `Scanner::scan_token`'s `/` arm:
`while self.peek() != '\n' && !self.is_at_end() { self.advance(); }`. -/
def commentLoop : Nat → ScanState → Option ScanState
  | 0, _ => none
  | fuel + 1, s =>
    if byteLen s.source ≤ s.current then some s
    else
      match s.source[s.current]? with
      | none => none
      | some c =>
        if c = '\n' then some s
        else commentLoop fuel { s with current := s.current + 1 }

/-- Rust `Scanner::scan_token`: one `advance`, then the character dispatch,
transcribed arm for arm in source order (single-character punctuation,
the four `=`-probing operators, `/` and line comments, string literals,
digits, alphabetic identifiers — ASCII predicate, see `identifierLoop` —
whitespace, newline, and the silent catch-all for unexpected
characters). -/
def scan_token (s : ScanState) : Option ScanState :=
  match advance s with
  | none => none
  | some (c, s1) =>
    if c = '(' then some (add_token TokenType.LeftParen none s1)
    else if c = ')' then some (add_token TokenType.RightParen none s1)
    else if c = '\x7b' then some (add_token TokenType.LeftBrace none s1)
    else if c = '\x7d' then some (add_token TokenType.RightBrace none s1)
    else if c = ',' then some (add_token TokenType.Comma none s1)
    else if c = '.' then some (add_token TokenType.Dot none s1)
    else if c = '-' then some (add_token TokenType.Minus none s1)
    else if c = '+' then some (add_token TokenType.Plus none s1)
    else if c = ';' then some (add_token TokenType.Semicolon none s1)
    else if c = '*' then some (add_token TokenType.Star none s1)
    else if c = '!' then
      match match_second '=' s1 with
      | none => none
      | some (true, s2) => some (add_token TokenType.BangEqual none s2)
      | some (false, s2) => some (add_token TokenType.Bang none s2)
    else if c = '=' then
      match match_second '=' s1 with
      | none => none
      | some (true, s2) => some (add_token TokenType.EqualEqual none s2)
      | some (false, s2) => some (add_token TokenType.Equal none s2)
    else if c = '<' then
      match match_second '=' s1 with
      | none => none
      | some (true, s2) => some (add_token TokenType.LessEqual none s2)
      | some (false, s2) => some (add_token TokenType.Less none s2)
    else if c = '>' then
      match match_second '=' s1 with
      | none => none
      | some (true, s2) => some (add_token TokenType.GreaterEqual none s2)
      | some (false, s2) => some (add_token TokenType.Greater none s2)
    else if c = '/' then
      match match_second '/' s1 with
      | none => none
      | some (false, s2) => some (add_token TokenType.Slash none s2)
      | some (true, s2) =>
        match commentLoop (byteLen s2.source + 1) s2 with
        | none => none
        | some s3 => some s3
    else if c = '"' then string s1
    else if c.isDigit then number s1
    else if c.isAlpha then identifier s1
    else if c = ' ' ∨ c = '\t' ∨ c = '\r' then some s1
    else if c = '\n' then some { s1 with line := s1.line + 1 }
    else some s1

/-- Loop of Rust `Scanner::scan_tokens`: while not at end, reset `start`
to `current` and scan one token; finally push the end-of-input token.
Fuel `byteLen + 1` can never be exhausted because every iteration strictly
advances the cursor and the loop runs only while `current < byteLen`. -/
def scan_tokens_go : Nat → ScanState → Option (List Token)
  | 0, _ => none
  | fuel + 1, s =>
    if byteLen s.source ≤ s.current then
      some (s.tokens ++
        [{ token_type := TokenType.Eof, lexeme := "", literal := none, line := s.line }])
    else
      match scan_token { s with start := s.current } with
      | none => none
      | some s1 => scan_tokens_go fuel s1

/-- Rust `Scanner::new` followed by `Scanner::scan_tokens`: scan a whole
source string; `none` models a panic during scanning. -/
def scan_tokens (source : String) : Option (List Token) :=
  scan_tokens_go (byteLen source.toList + 1)
    { source := source.toList, tokens := [], start := 0, current := 0, line := 1 }

end Scanner

namespace Parser

/-- Parse errors of `src/parser.rs` (`enum ParserError`). -/
inductive ParserError where
  | ParseError (message : String)
deriving DecidableEq

/-- Kinds of Rust panic the parser can hit, kept distinct so theorems can
tell them apart: an out-of-bounds `self.tokens[self.current]` index, an
`unwrap` of a `None` literal payload, an `unwrap` of an `Err` from
`consume` (which carries the parse error being discarded), and an
`unwrap` of a failed `lexeme.parse::<f64>()`. -/
inductive PanicKind where
  | indexOut
  | unwrapNone
  | unwrapErr (e : ParserError)
  | parseFail
deriving DecidableEq

/-- Outcome of running a parser routine: `Ok` value with the final cursor,
a returned `Err` with the cursor at failure, a Rust panic, or fuel
exhaustion (an artifact of the fuel encoding, distinct from every source
behaviour; concrete runs below always receive ample fuel). -/
inductive PRes (α : Type) where
  | ok (value : α) (current : Nat)
  | err (e : ParserError) (current : Nat)
  | panicked (k : PanicKind)
  | fuelOut
deriving DecidableEq

/-- Rust `Parser::peek`: `self.tokens[self.current].clone()`; `none`
models the index panic. -/
def peek (ts : List Token) (cur : Nat) : Option Token := ts[cur]?

/-- Rust `Parser::check`: `false` at end of input (where `is_at_end`
itself peeks), otherwise comparison of the peeked kind. -/
def check (ts : List Token) (cur : Nat) (tt : TokenType) : Option Bool :=
  match ts[cur]? with
  | none => none
  | some t =>
    if t.token_type = TokenType.Eof then some false
    else some (decide (t.token_type = tt))

/-- Rust `Parser::advance`: read `self.tokens[self.current]` (index panic
possible), then increment the cursor only when not at the end-of-input
token. -/
def advance (ts : List Token) (cur : Nat) : Option (Token × Nat) :=
  match ts[cur]? with
  | none => none
  | some t =>
    if t.token_type = TokenType.Eof then some (t, cur)
    else some (t, cur + 1)

/-- Rust `Parser::match_token`: consume and return the current token when
its kind matches, otherwise leave the cursor unchanged. -/
def match_token (ts : List Token) (cur : Nat) (tt : TokenType) : Option (Option Token × Nat) :=
  match check ts cur tt with
  | none => none
  | some true =>
    match advance ts cur with
    | none => none
    | some (t, c) => some (some t, c)
  | some false => some (none, cur)

/-- Rust `Parser::match_tokens`: first kind in the list that `check`s
wins and is consumed. -/
def match_tokens (ts : List Token) (cur : Nat) : List TokenType → Option (Option Token × Nat)
  | [] => some (none, cur)
  | tt :: rest =>
    match check ts cur tt with
    | none => none
    | some true =>
      match advance ts cur with
      | none => none
      | some (t, c) => some (some t, c)
    | some false => match_tokens ts cur rest

/-- Rust `Parser::consume`: advance past the expected kind or return
`Err(ParserError::ParseError(message))`. -/
def consume (ts : List Token) (cur : Nat) (tt : TokenType) (message : String) : PRes Token :=
  match check ts cur tt with
  | none => PRes.panicked PanicKind.indexOut
  | some true =>
    match advance ts cur with
    | none => PRes.panicked PanicKind.indexOut
    | some (t, c) => PRes.ok t c
  | some false => PRes.err (ParserError.ParseError message) cur

/-- Which grammar routine of `src/parser.rs` to run.  `binRest ops next
left` is the state of the `while let Some(operator) = self.match_tokens(..)`
fold inside a binary-precedence routine: the operator kinds of this level,
the next-higher-precedence routine, and the left operand built so far. -/
inductive RuleKind where
  | expression
  | equality
  | comparison
  | term
  | factor
  | unary
  | primary
  | binRest (ops : List TokenType) (next : RuleKind) (left : Expr)

/-- The recursive-descent grammar of `src/parser.rs`, one routine per
`RuleKind`, transcribed rule for rule (`expression` → `equality`; each
binary level parses one operand then folds `Binary` nodes left-to-left via
`binRest`; `unary` recurses into itself after `!`/`-`; `primary` tries
`NUMBER` — re-parsing the lexeme with `.parse().unwrap()` — then
`STRING` — `token.literal.unwrap()` — then `true`/`false`/`nil`, then a
parenthesized expression whose missing `)` makes `consume`'s `Err` hit the
source's `.unwrap()`, i.e. a panic; no alternative left is the returned
error "Expect expression.").  The fuel argument makes the mutual recursion
structural; every call in this file supplies ample fuel. -/
def runRule (ts : List Token) : Nat → RuleKind → Nat → PRes Expr
  | 0, _, _ => PRes.fuelOut
  | fuel + 1, rk, cur =>
    match rk with
    | RuleKind.expression => runRule ts fuel RuleKind.equality cur
    | RuleKind.equality =>
      match runRule ts fuel RuleKind.comparison cur with
      | PRes.ok left c1 =>
        runRule ts fuel
          (RuleKind.binRest [TokenType.BangEqual, TokenType.EqualEqual] RuleKind.comparison left) c1
      | other => other
    | RuleKind.comparison =>
      match runRule ts fuel RuleKind.term cur with
      | PRes.ok left c1 =>
        runRule ts fuel
          (RuleKind.binRest [TokenType.Greater, TokenType.GreaterEqual, TokenType.Less,
            TokenType.LessEqual] RuleKind.term left) c1
      | other => other
    | RuleKind.term =>
      match runRule ts fuel RuleKind.factor cur with
      | PRes.ok left c1 =>
        runRule ts fuel
          (RuleKind.binRest [TokenType.Minus, TokenType.Plus] RuleKind.factor left) c1
      | other => other
    | RuleKind.factor =>
      match runRule ts fuel RuleKind.unary cur with
      | PRes.ok left c1 =>
        runRule ts fuel
          (RuleKind.binRest [TokenType.Slash, TokenType.Star] RuleKind.unary left) c1
      | other => other
    | RuleKind.binRest ops next left =>
      match match_tokens ts cur ops with
      | none => PRes.panicked PanicKind.indexOut
      | some (none, c1) => PRes.ok left c1
      | some (some op, c1) =>
        match runRule ts fuel next c1 with
        | PRes.ok right c2 =>
          runRule ts fuel (RuleKind.binRest ops next (Expr.Binary left op right)) c2
        | other => other
    | RuleKind.unary =>
      match match_tokens ts cur [TokenType.Bang, TokenType.Minus] with
      | none => PRes.panicked PanicKind.indexOut
      | some (some op, c1) =>
        match runRule ts fuel RuleKind.unary c1 with
        | PRes.ok right c2 => PRes.ok (Expr.Unary op right) c2
        | other => other
      | some (none, c1) => runRule ts fuel RuleKind.primary c1
    | RuleKind.primary =>
      match match_token ts cur TokenType.Number with
      | none => PRes.panicked PanicKind.indexOut
      | some (some tok, c1) =>
        match parseFloatQ tok.lexeme.toList with
        | none => PRes.panicked PanicKind.parseFail
        | some v => PRes.ok (Expr.Literal (Literal.Number v)) c1
      | some (none, c1) =>
        match match_token ts c1 TokenType.String with
        | none => PRes.panicked PanicKind.indexOut
        | some (some tok, c2) =>
          match tok.literal with
          | none => PRes.panicked PanicKind.unwrapNone
          | some lit => PRes.ok (Expr.Literal lit) c2
        | some (none, c2) =>
          match match_token ts c2 TokenType.True with
          | none => PRes.panicked PanicKind.indexOut
          | some (some _, c3) => PRes.ok (Expr.Literal Literal.True) c3
          | some (none, c3) =>
            match match_token ts c3 TokenType.False with
            | none => PRes.panicked PanicKind.indexOut
            | some (some _, c4) => PRes.ok (Expr.Literal Literal.False) c4
            | some (none, c4) =>
              match match_token ts c4 TokenType.Nil with
              | none => PRes.panicked PanicKind.indexOut
              | some (some _, c5) => PRes.ok (Expr.Literal Literal.Nil) c5
              | some (none, c5) =>
                match match_token ts c5 TokenType.LeftParen with
                | none => PRes.panicked PanicKind.indexOut
                | some (some _, c6) =>
                  match runRule ts fuel RuleKind.expression c6 with
                  | PRes.ok e c7 =>
                    match consume ts c7 TokenType.RightParen
                        ("Expect \x27)\x27 after expression.") with
                    | PRes.ok _ c8 => PRes.ok (Expr.Grouping e) c8
                    | PRes.err pe _ => PRes.panicked (PanicKind.unwrapErr pe)
                    | PRes.panicked k => PRes.panicked k
                    | PRes.fuelOut => PRes.fuelOut
                  | other => other
                | some (none, c6) =>
                  PRes.err (ParserError.ParseError ("Expect expression.")) c6

/-- Rust `Parser::expression`, the parse entry point, at a given fuel and
start cursor. -/
def expression (ts : List Token) (fuel cur : Nat) : PRes Expr :=
  runRule ts fuel RuleKind.expression cur

/-- Safety predicate for claim C10: a parser outcome neither panicked on a
token index (`self.tokens[self.current]` stayed in bounds throughout) nor
returned with its cursor past the end-of-input index `eofIdx`. -/
def cursorOK (eofIdx : Nat) (r : PRes Expr) : Prop :=
  r ≠ PRes.panicked PanicKind.indexOut ∧
  (∀ e c, r = PRes.ok e c → c ≤ eofIdx) ∧
  (∀ er c, r = PRes.err er c → c ≤ eofIdx)

end Parser

/-- Overall outcome of the `main.rs` pipeline scan → parse → evaluate on
one source line. -/
inductive LoxOut where
  | value (v : IntrResult)
  | parseErr (e : Parser.ParserError)
  | runtimeErr (e : IntrError)
  | panicked (k : Parser.PanicKind)
  | scanPanic
  | fuelOut
deriving DecidableEq

/-- The `main.rs` `interpret` pipeline: scan the source, parse one
expression, evaluate it. -/
def interpret (fuel : Nat) (src : String) : LoxOut :=
  match Scanner.scan_tokens src with
  | none => LoxOut.scanPanic
  | some ts =>
    match Parser.expression ts fuel 0 with
    | Parser.PRes.ok e _ =>
      match Interpreter.evaluate e with
      | Except.ok v => LoxOut.value v
      | Except.error err => LoxOut.runtimeErr err
    | Parser.PRes.err e _ => LoxOut.parseErr e
    | Parser.PRes.panicked k => LoxOut.panicked k
    | Parser.PRes.fuelOut => LoxOut.fuelOut

/-- Scan and parse a source string, returning the `Display` form of the
resulting tree (the `expr.to_string()` of the repository's parser tests);
`none` when scanning or parsing does not return a tree. -/
def displayOfSource (fuel : Nat) (src : String) : Option String :=
  match Scanner.scan_tokens src with
  | none => none
  | some ts =>
    match Parser.expression ts fuel 0 with
    | Parser.PRes.ok e _ => some (display e)
    | _ => none

/-- Scan and parse a source string, returning the raw parser outcome;
`none` models a panic inside the scanner. -/
def parseOfSource (fuel : Nat) (src : String) : Option (Parser.PRes Expr) :=
  match Scanner.scan_tokens src with
  | none => none
  | some ts => some (Parser.expression ts fuel 0)

/-- Token helper used only by concrete witnesses: a token with the given
kind and lexeme, no literal payload, line 1. -/
def mkTok (tt : TokenType) (lx : String) : Token :=
  { token_type := tt, lexeme := lx, literal := none, line := 1 }

/-- C1 counterexample: the claim asserts `evaluate(parse("!0")) ==
Bool(true)` and `evaluate(parse("!1")) == Bool(false)`, but the evaluator
maps `!` on a number to `Bool(number > 0.0)` — the truthiness value
itself, not its negation — so the pipeline produces exactly the opposite
booleans. -/
theorem bang_zero_one_claim_counterexample :
    ¬ (interpret 64 ("!0") = LoxOut.value (IntrResult.Bool true) ∧
       interpret 64 ("!1") = LoxOut.value (IntrResult.Bool false)) := by
  decide

/-- C1 amended: evaluating the scanned and parsed sources `!0` and `!1`
yields `Bool(false)` and `Bool(true)` respectively — `!` on a number
returns `Bool(number > 0.0)` directly. -/
theorem bang_zero_one_actual_values :
    interpret 64 ("!0") = LoxOut.value (IntrResult.Bool false) ∧
    interpret 64 ("!1") = LoxOut.value (IntrResult.Bool true) := by
  decide

/-- C4 failing input: scanning the one-character, two-byte source `"€"`
panics (modelled by `none`): `is_at_end` compares the char cursor against
the UTF-8 byte length 3, so after the first character the loop keeps
running and `advance` calls `.nth(1).unwrap()` on `None`. -/
theorem scan_tokens_panics_on_multibyte :
    Scanner.scan_tokens ("€") = none := by
  rfl

/-- C5 failing input: parsing the token sequence scanned from `"(1 + 2"`
does not return the parse error — `Parser::primary` calls `.unwrap()` on
the `Err` that `consume` produced, so the process panics while discarding
`ParseError("Expect ')' after expression.")`. -/
theorem unclosed_paren_panics :
    parseOfSource 64 ("(1 + 2") =
      some (Parser.PRes.panicked (Parser.PanicKind.unwrapErr
        (Parser.ParserError.ParseError ("Expect \x27)\x27 after expression.")))) := by
  rfl

/-- C6 failing input: parsing `"1 - 2 - 3"` does build the strictly
left-associated tree `Binary(Binary(1, -, 2), -, 3)`, but its display form
is `"(- (- 1.0 2.0) 3.0)"`, not the claimed `"(- (- 1 2) 3)"`, because the
`Display` implementation formats every number literal with `{:.1}`. -/
theorem left_assoc_display_formats_with_decimal :
    parseOfSource 64 ("1 - 2 - 3") =
      some (Parser.PRes.ok (Expr.Binary
        (Expr.Binary (Expr.Literal (Literal.Number 1))
          { token_type := TokenType.Minus, lexeme := "-", literal := none, line := 1 }
          (Expr.Literal (Literal.Number 2)))
        { token_type := TokenType.Minus, lexeme := "-", literal := none, line := 1 }
        (Expr.Literal (Literal.Number 3))) 5) ∧
    displayOfSource 64 ("1 - 2 - 3") = some ("(- (- 1.0 2.0) 3.0)") := by
  decide

/-- C2: unary `!` never fails — whenever the operand expression evaluates
to a value `v`, `Unary(!, e)` evaluates to `Ok` of `Bool(v > 0.0)` for
numbers (only strictly positive numbers are truthy), `Bool(!b)` for
booleans, `Bool(false)` for `None`, and `Bool(true)` for strings. -/
theorem bang_total_truthiness (t : Token) (e : Expr) (v : IntrResult)
    (ht : t.token_type = TokenType.Bang)
    (he : Interpreter.evaluate e = Except.ok v) :
    Interpreter.evaluate (Expr.Unary t e) =
      Except.ok (IntrResult.Bool (match v with
        | IntrResult.Number n => decide (n > 0)
        | IntrResult.Bool b => !b
        | IntrResult.None => false
        | IntrResult.String _ => true)) := by
  cases v <;> simp [Interpreter.evaluate, he, ht]

/-- Witness for C2 at the concrete operand `1`: `!1` evaluates to
`Bool(true)`. -/
theorem bang_total_truthiness_witness :
    Interpreter.evaluate (Expr.Unary (mkTok TokenType.Bang ("!"))
      (Expr.Literal (Literal.Number 1))) = Except.ok (IntrResult.Bool true) := by
  rw [bang_total_truthiness (mkTok TokenType.Bang ("!"))
    (Expr.Literal (Literal.Number 1)) (IntrResult.Number 1) rfl rfl]
  rfl

/-- C3: for every pair of numbers and every pair of strings, `!=` returns
the very same `Bool` as `==` (the equality comparison, not its negation),
and `nil != nil` is an unsupported-operator error since the `!=` dispatch
defines no `(None, None)` arm. -/
theorem bangEqual_behaves_like_equalEqual :
    (∀ (t1 t2 : Token) (e1 e2 : Expr) (a b : Rat),
      t1.token_type = TokenType.BangEqual → t2.token_type = TokenType.EqualEqual →
      Interpreter.evaluate e1 = Except.ok (IntrResult.Number a) →
      Interpreter.evaluate e2 = Except.ok (IntrResult.Number b) →
      Interpreter.evaluate (Expr.Binary e1 t1 e2) = Except.ok (IntrResult.Bool (decide (a = b))) ∧
      Interpreter.evaluate (Expr.Binary e1 t1 e2) = Interpreter.evaluate (Expr.Binary e1 t2 e2)) ∧
    (∀ (t1 t2 : Token) (e1 e2 : Expr) (s1 s2 : String),
      t1.token_type = TokenType.BangEqual → t2.token_type = TokenType.EqualEqual →
      Interpreter.evaluate e1 = Except.ok (IntrResult.String s1) →
      Interpreter.evaluate e2 = Except.ok (IntrResult.String s2) →
      Interpreter.evaluate (Expr.Binary e1 t1 e2) = Except.ok (IntrResult.Bool (decide (s1 = s2))) ∧
      Interpreter.evaluate (Expr.Binary e1 t1 e2) = Interpreter.evaluate (Expr.Binary e1 t2 e2)) ∧
    (∀ t : Token, t.token_type = TokenType.BangEqual →
      Interpreter.evaluate (Expr.Binary (Expr.Literal Literal.Nil) t (Expr.Literal Literal.Nil)) =
        Except.error (IntrError.Unsupported t)) := by
  refine ⟨?_, ?_, ?_⟩
  · intro t1 t2 e1 e2 a b h1 h2 he1 he2
    constructor <;> simp [Interpreter.evaluate, h1, h2, he1, he2]
  · intro t1 t2 e1 e2 s1 s2 h1 h2 he1 he2
    constructor <;> simp [Interpreter.evaluate, h1, h2, he1, he2]
  · intro t ht
    simp [Interpreter.evaluate, ht]

/-- Witness for C3 at concrete inputs: `1 != 2` evaluates exactly like
`1 == 2` (both to `Bool(false)`), and `nil != nil` is an
unsupported-operator error. -/
theorem bangEqual_behaves_like_equalEqual_witness :
    Interpreter.evaluate (Expr.Binary (Expr.Literal (Literal.Number 1))
        (mkTok TokenType.BangEqual ("!=")) (Expr.Literal (Literal.Number 2))) =
      Interpreter.evaluate (Expr.Binary (Expr.Literal (Literal.Number 1))
        (mkTok TokenType.EqualEqual ("==")) (Expr.Literal (Literal.Number 2))) ∧
    Interpreter.evaluate (Expr.Binary (Expr.Literal Literal.Nil)
        (mkTok TokenType.BangEqual ("!=")) (Expr.Literal Literal.Nil)) =
      Except.error (IntrError.Unsupported (mkTok TokenType.BangEqual ("!="))) := by
  refine ⟨?_, ?_⟩
  · exact (bangEqual_behaves_like_equalEqual.1 (mkTok TokenType.BangEqual ("!="))
      (mkTok TokenType.EqualEqual ("==")) (Expr.Literal (Literal.Number 1))
      (Expr.Literal (Literal.Number 2)) 1 2 rfl rfl rfl rfl).2
  · exact bangEqual_behaves_like_equalEqual.2.2 (mkTok TokenType.BangEqual ("!=")) rfl

/-- C7: `==` succeeds exactly on the pairings `(Number, Number)`,
`(String, String)` and `(None, None)`; every other pairing of value shapes
returns an unsupported-operator error carrying the operator token — never
a fallback `Bool(false)`. -/
theorem equalEqual_pairings (t : Token) (e1 e2 : Expr) (v1 v2 : IntrResult)
    (ht : t.token_type = TokenType.EqualEqual)
    (h1 : Interpreter.evaluate e1 = Except.ok v1)
    (h2 : Interpreter.evaluate e2 = Except.ok v2) :
    Interpreter.evaluate (Expr.Binary e1 t e2) =
      (match v1, v2 with
       | IntrResult.Number a, IntrResult.Number b => Except.ok (IntrResult.Bool (decide (a = b)))
       | IntrResult.String a, IntrResult.String b => Except.ok (IntrResult.Bool (decide (a = b)))
       | IntrResult.None, IntrResult.None => Except.ok (IntrResult.Bool true)
       | _, _ => Except.error (IntrError.Unsupported t)) := by
  cases v1 <;> cases v2 <;> simp [Interpreter.evaluate, h1, h2, ht]

/-- Witness for C7 at the concrete cross-type pairing `true == nil`:
an unsupported-operator error carrying the `==` token. -/
theorem equalEqual_pairings_witness :
    Interpreter.evaluate (Expr.Binary (Expr.Literal Literal.True)
        (mkTok TokenType.EqualEqual ("==")) (Expr.Literal Literal.Nil)) =
      Except.error (IntrError.Unsupported (mkTok TokenType.EqualEqual ("=="))) := by
  rw [equalEqual_pairings (mkTok TokenType.EqualEqual ("=="))
    (Expr.Literal Literal.True) (Expr.Literal Literal.Nil)
    (IntrResult.Bool true) IntrResult.None rfl rfl rfl]

/-- C8: `/` over two numbers always returns `Ok` with a `Number` — a zero
right operand is not a runtime error (the evaluator performs the division
unconditionally; the concrete IEEE infinity/NaN payload lies outside the
rational number model used here). -/
theorem slash_total_on_numbers (t : Token) (e1 e2 : Expr) (a b : Rat)
    (ht : t.token_type = TokenType.Slash)
    (h1 : Interpreter.evaluate e1 = Except.ok (IntrResult.Number a))
    (h2 : Interpreter.evaluate e2 = Except.ok (IntrResult.Number b)) :
    Interpreter.evaluate (Expr.Binary e1 t e2) = Except.ok (IntrResult.Number (a / b)) := by
  simp [Interpreter.evaluate, h1, h2, ht]

/-- Witness for C8 at the concrete division `1 / 0`: evaluation returns
`Ok` with a `Number`, not an error. -/
theorem slash_total_on_numbers_witness :
    Interpreter.evaluate (Expr.Binary (Expr.Literal (Literal.Number 1))
        (mkTok TokenType.Slash ("/")) (Expr.Literal (Literal.Number 0))) =
      Except.ok (IntrResult.Number ((1 : Rat) / 0)) :=
  slash_total_on_numbers (mkTok TokenType.Slash ("/"))
    (Expr.Literal (Literal.Number 1)) (Expr.Literal (Literal.Number 0)) 1 0 rfl rfl rfl

/-- Helper: `cursorOK` holds of an `ok` outcome whose cursor is in
bounds. -/
theorem Parser.cursorOK_ok {L c : Nat} {e : Expr} (h : c ≤ L) :
    Parser.cursorOK L (Parser.PRes.ok e c) := by
  refine ⟨by simp, ?_, ?_⟩ <;> intro x y hxy <;> cases hxy
  exact h

/-- Helper: `cursorOK` holds of an `err` outcome whose cursor is in
bounds. -/
theorem Parser.cursorOK_err {L c : Nat} {er : Parser.ParserError} (h : c ≤ L) :
    Parser.cursorOK L (Parser.PRes.err er c) := by
  refine ⟨by simp, ?_, ?_⟩ <;> intro x y hxy <;> cases hxy
  exact h

/-- Helper: `cursorOK` holds of any panic other than an index panic. -/
theorem Parser.cursorOK_panicked {L : Nat} {k : Parser.PanicKind}
    (h : k ≠ Parser.PanicKind.indexOut) :
    Parser.cursorOK L (Parser.PRes.panicked k) := by
  refine ⟨?_, ?_, ?_⟩
  · intro hk
    cases hk
    exact h rfl
  all_goals intro x y hxy <;> cases hxy

/-- Helper: `cursorOK` holds of fuel exhaustion. -/
theorem Parser.cursorOK_fuelOut {L : Nat} :
    Parser.cursorOK L (Parser.PRes.fuelOut (α := Expr)) := by
  refine ⟨by simp, ?_, ?_⟩ <;> intro x y hxy <;> cases hxy

/-- Helper: in a token list of the form `pre ++ [eofTok]` every cursor
position `cur ≤ pre.length` indexes an actual token, and a token that is
not the end-of-input marker can only sit strictly before `pre.length`. -/
theorem Parser.tok_at (pre : List Token) (eofTok : Token)
    (heof : eofTok.token_type = TokenType.Eof) (cur : Nat) (h : cur ≤ pre.length) :
    ∃ t, (pre ++ [eofTok])[cur]? = some t ∧
      (t.token_type ≠ TokenType.Eof → cur < pre.length) := by
  rcases Nat.lt_or_ge cur pre.length with hlt | hge
  · refine ⟨pre[cur], ?_, fun _ => hlt⟩
    rw [List.getElem?_append_left hlt, List.getElem?_eq_getElem hlt]
  · have hcur : cur = pre.length := Nat.le_antisymm h hge
    subst hcur
    refine ⟨eofTok, List.getElem?_concat_length pre eofTok, fun hne => absurd heof hne⟩

/-- Helper: `Parser::advance` never index-panics at an in-bounds cursor
and leaves the cursor at most at the end-of-input index (it does not
increment at the end-of-input token). -/
theorem Parser.advance_wf (pre : List Token) (eofTok : Token)
    (heof : eofTok.token_type = TokenType.Eof) (cur : Nat) (h : cur ≤ pre.length) :
    ∃ t c, Parser.advance (pre ++ [eofTok]) cur = some (t, c) ∧ c ≤ pre.length := by
  obtain ⟨t, hget, himp⟩ := Parser.tok_at pre eofTok heof cur h
  by_cases ht : t.token_type = TokenType.Eof
  · exact ⟨t, cur, by simp [Parser.advance, hget, ht], h⟩
  · exact ⟨t, cur + 1, by simp [Parser.advance, hget, ht], himp ht⟩

/-- Helper: `Parser::check` never index-panics at an in-bounds cursor. -/
theorem Parser.check_wf (pre : List Token) (eofTok : Token)
    (heof : eofTok.token_type = TokenType.Eof) (cur : Nat) (h : cur ≤ pre.length)
    (tt : TokenType) :
    ∃ b, Parser.check (pre ++ [eofTok]) cur tt = some b := by
  obtain ⟨t, hget, -⟩ := Parser.tok_at pre eofTok heof cur h
  by_cases ht : t.token_type = TokenType.Eof
  · exact ⟨false, by simp [Parser.check, hget, ht]⟩
  · exact ⟨decide (t.token_type = tt), by simp [Parser.check, hget, ht]⟩

/-- Helper: `Parser::match_token` never index-panics at an in-bounds
cursor and keeps the cursor in bounds. -/
theorem Parser.match_token_wf (pre : List Token) (eofTok : Token)
    (heof : eofTok.token_type = TokenType.Eof) (cur : Nat) (h : cur ≤ pre.length)
    (tt : TokenType) :
    ∃ r c, Parser.match_token (pre ++ [eofTok]) cur tt = some (r, c) ∧ c ≤ pre.length := by
  obtain ⟨b, hb⟩ := Parser.check_wf pre eofTok heof cur h tt
  cases b
  · exact ⟨none, cur, by simp [Parser.match_token, hb], h⟩
  · obtain ⟨t, c, ha, hc⟩ := Parser.advance_wf pre eofTok heof cur h
    exact ⟨some t, c, by simp [Parser.match_token, hb, ha], hc⟩

/-- Helper: `Parser::match_tokens` never index-panics at an in-bounds
cursor and keeps the cursor in bounds. -/
theorem Parser.match_tokens_wf (pre : List Token) (eofTok : Token)
    (heof : eofTok.token_type = TokenType.Eof) (cur : Nat) (h : cur ≤ pre.length)
    (ops : List TokenType) :
    ∃ r c, Parser.match_tokens (pre ++ [eofTok]) cur ops = some (r, c) ∧ c ≤ pre.length := by
  induction ops with
  | nil => exact ⟨none, cur, rfl, h⟩
  | cons tt rest ih =>
    obtain ⟨b, hb⟩ := Parser.check_wf pre eofTok heof cur h tt
    cases b
    · obtain ⟨r, c, hrc, hc⟩ := ih
      exact ⟨r, c, by simp [Parser.match_tokens, hb, hrc], hc⟩
    · obtain ⟨t, c, ha, hc⟩ := Parser.advance_wf pre eofTok heof cur h
      exact ⟨some t, c, by simp [Parser.match_tokens, hb, ha], hc⟩

/-- Helper: `Parser::consume` never panics at an in-bounds cursor and
keeps the cursor in bounds, whether it succeeds or returns the error. -/
theorem Parser.consume_wf (pre : List Token) (eofTok : Token)
    (heof : eofTok.token_type = TokenType.Eof) (cur : Nat) (h : cur ≤ pre.length)
    (tt : TokenType) (msg : String) :
    (∀ k, Parser.consume (pre ++ [eofTok]) cur tt msg ≠ Parser.PRes.panicked k) ∧
    (∀ t c, Parser.consume (pre ++ [eofTok]) cur tt msg = Parser.PRes.ok t c → c ≤ pre.length) ∧
    (∀ er c, Parser.consume (pre ++ [eofTok]) cur tt msg = Parser.PRes.err er c → c ≤ pre.length) := by
  obtain ⟨b, hb⟩ := Parser.check_wf pre eofTok heof cur h tt
  cases b
  · refine ⟨fun k => ?_, fun t c hc => ?_, fun er c hc => ?_⟩
    · simp [Parser.consume, hb]
    · simp [Parser.consume, hb] at hc
    · simp [Parser.consume, hb] at hc
      rcases hc with ⟨h1, h2⟩
      omega
  · obtain ⟨t0, c0, ha, hc0⟩ := Parser.advance_wf pre eofTok heof cur h
    refine ⟨fun k => ?_, fun t c hc => ?_, fun er c hc => ?_⟩
    · simp [Parser.consume, hb, ha]
    · simp [Parser.consume, hb, ha] at hc
      rcases hc with ⟨h1, h2⟩
      omega
    · simp [Parser.consume, hb, ha] at hc

/-- C10: on any token sequence whose final token is the only end-of-input
token, no parser routine (grammar rules, operator folds, and the
primitives they call) ever index-panics on `self.tokens[self.current]`,
and whenever a routine returns (`Ok` or `Err`) its cursor is still at most
the index of the end-of-input token — `advance` does not increment there,
and `check`/`peek` read at most the current index. -/
theorem parser_cursor_in_bounds (pre : List Token) (eofTok : Token)
    (heof : eofTok.token_type = TokenType.Eof)
    (hpre : ∀ t ∈ pre, t.token_type ≠ TokenType.Eof) :
    ∀ fuel rk cur, cur ≤ pre.length →
      Parser.cursorOK pre.length (Parser.runRule (pre ++ [eofTok]) fuel rk cur) := by
  intro fuel
  induction fuel with
  | zero =>
    intro rk cur h
    exact Parser.cursorOK_fuelOut
  | succ fuel ih =>
    intro rk cur h
    cases rk with
    | expression =>
      simpa [Parser.runRule] using ih Parser.RuleKind.equality cur h
    | equality =>
      cases hres : Parser.runRule (pre ++ [eofTok]) fuel Parser.RuleKind.comparison cur with
      | ok left c1 =>
        have hc1 := (ih Parser.RuleKind.comparison cur h).2.1 left c1 hres
        simpa [Parser.runRule, hres] using
          ih (Parser.RuleKind.binRest [TokenType.BangEqual, TokenType.EqualEqual]
            Parser.RuleKind.comparison left) c1 hc1
      | err er c1 =>
        have hc1 := (ih Parser.RuleKind.comparison cur h).2.2 er c1 hres
        simp only [Parser.runRule, hres]
        exact Parser.cursorOK_err hc1
      | panicked k =>
        have hk : k ≠ Parser.PanicKind.indexOut := by
          intro hkk
          exact (ih Parser.RuleKind.comparison cur h).1 (by rw [hkk] at hres; exact hres)
        simp only [Parser.runRule, hres]
        exact Parser.cursorOK_panicked hk
      | fuelOut =>
        simp only [Parser.runRule, hres]
        exact Parser.cursorOK_fuelOut
    | comparison =>
      cases hres : Parser.runRule (pre ++ [eofTok]) fuel Parser.RuleKind.term cur with
      | ok left c1 =>
        have hc1 := (ih Parser.RuleKind.term cur h).2.1 left c1 hres
        simpa [Parser.runRule, hres] using
          ih (Parser.RuleKind.binRest [TokenType.Greater, TokenType.GreaterEqual,
            TokenType.Less, TokenType.LessEqual] Parser.RuleKind.term left) c1 hc1
      | err er c1 =>
        have hc1 := (ih Parser.RuleKind.term cur h).2.2 er c1 hres
        simp only [Parser.runRule, hres]
        exact Parser.cursorOK_err hc1
      | panicked k =>
        have hk : k ≠ Parser.PanicKind.indexOut := by
          intro hkk
          exact (ih Parser.RuleKind.term cur h).1 (by rw [hkk] at hres; exact hres)
        simp only [Parser.runRule, hres]
        exact Parser.cursorOK_panicked hk
      | fuelOut =>
        simp only [Parser.runRule, hres]
        exact Parser.cursorOK_fuelOut
    | term =>
      cases hres : Parser.runRule (pre ++ [eofTok]) fuel Parser.RuleKind.factor cur with
      | ok left c1 =>
        have hc1 := (ih Parser.RuleKind.factor cur h).2.1 left c1 hres
        simpa [Parser.runRule, hres] using
          ih (Parser.RuleKind.binRest [TokenType.Minus, TokenType.Plus]
            Parser.RuleKind.factor left) c1 hc1
      | err er c1 =>
        have hc1 := (ih Parser.RuleKind.factor cur h).2.2 er c1 hres
        simp only [Parser.runRule, hres]
        exact Parser.cursorOK_err hc1
      | panicked k =>
        have hk : k ≠ Parser.PanicKind.indexOut := by
          intro hkk
          exact (ih Parser.RuleKind.factor cur h).1 (by rw [hkk] at hres; exact hres)
        simp only [Parser.runRule, hres]
        exact Parser.cursorOK_panicked hk
      | fuelOut =>
        simp only [Parser.runRule, hres]
        exact Parser.cursorOK_fuelOut
    | factor =>
      cases hres : Parser.runRule (pre ++ [eofTok]) fuel Parser.RuleKind.unary cur with
      | ok left c1 =>
        have hc1 := (ih Parser.RuleKind.unary cur h).2.1 left c1 hres
        simpa [Parser.runRule, hres] using
          ih (Parser.RuleKind.binRest [TokenType.Slash, TokenType.Star]
            Parser.RuleKind.unary left) c1 hc1
      | err er c1 =>
        have hc1 := (ih Parser.RuleKind.unary cur h).2.2 er c1 hres
        simp only [Parser.runRule, hres]
        exact Parser.cursorOK_err hc1
      | panicked k =>
        have hk : k ≠ Parser.PanicKind.indexOut := by
          intro hkk
          exact (ih Parser.RuleKind.unary cur h).1 (by rw [hkk] at hres; exact hres)
        simp only [Parser.runRule, hres]
        exact Parser.cursorOK_panicked hk
      | fuelOut =>
        simp only [Parser.runRule, hres]
        exact Parser.cursorOK_fuelOut
    | binRest ops next left =>
      obtain ⟨r, c1, hmt, hc1⟩ := Parser.match_tokens_wf pre eofTok heof cur h ops
      cases r with
      | none =>
        simp only [Parser.runRule, hmt]
        exact Parser.cursorOK_ok hc1
      | some op =>
        cases hres : Parser.runRule (pre ++ [eofTok]) fuel next c1 with
        | ok right c2 =>
          have hc2 := (ih next c1 hc1).2.1 right c2 hres
          simpa [Parser.runRule, hmt, hres] using
            ih (Parser.RuleKind.binRest ops next (Expr.Binary left op right)) c2 hc2
        | err er c2 =>
          have hc2 := (ih next c1 hc1).2.2 er c2 hres
          simp only [Parser.runRule, hmt, hres]
          exact Parser.cursorOK_err hc2
        | panicked k =>
          have hk : k ≠ Parser.PanicKind.indexOut := by
            intro hkk
            exact (ih next c1 hc1).1 (by rw [hkk] at hres; exact hres)
          simp only [Parser.runRule, hmt, hres]
          exact Parser.cursorOK_panicked hk
        | fuelOut =>
          simp only [Parser.runRule, hmt, hres]
          exact Parser.cursorOK_fuelOut
    | unary =>
      obtain ⟨r, c1, hmt, hc1⟩ :=
        Parser.match_tokens_wf pre eofTok heof cur h [TokenType.Bang, TokenType.Minus]
      cases r with
      | none =>
        simpa [Parser.runRule, hmt] using ih Parser.RuleKind.primary c1 hc1
      | some op =>
        cases hres : Parser.runRule (pre ++ [eofTok]) fuel Parser.RuleKind.unary c1 with
        | ok right c2 =>
          have hc2 := (ih Parser.RuleKind.unary c1 hc1).2.1 right c2 hres
          simp only [Parser.runRule, hmt, hres]
          exact Parser.cursorOK_ok hc2
        | err er c2 =>
          have hc2 := (ih Parser.RuleKind.unary c1 hc1).2.2 er c2 hres
          simp only [Parser.runRule, hmt, hres]
          exact Parser.cursorOK_err hc2
        | panicked k =>
          have hk : k ≠ Parser.PanicKind.indexOut := by
            intro hkk
            exact (ih Parser.RuleKind.unary c1 hc1).1 (by rw [hkk] at hres; exact hres)
          simp only [Parser.runRule, hmt, hres]
          exact Parser.cursorOK_panicked hk
        | fuelOut =>
          simp only [Parser.runRule, hmt, hres]
          exact Parser.cursorOK_fuelOut
    | primary =>
      obtain ⟨r1, c1, hm1, hc1⟩ := Parser.match_token_wf pre eofTok heof cur h TokenType.Number
      cases r1 with
      | some tok =>
        cases hpf : parseFloatQ tok.lexeme.toList with
        | none =>
          simp only [Parser.runRule, hm1, hpf]
          exact Parser.cursorOK_panicked (by simp)
        | some v =>
          simp only [Parser.runRule, hm1, hpf]
          exact Parser.cursorOK_ok hc1
      | none =>
        obtain ⟨r2, c2, hm2, hc2⟩ := Parser.match_token_wf pre eofTok heof c1 hc1 TokenType.String
        cases r2 with
        | some tok =>
          cases hlit : tok.literal with
          | none =>
            simp only [Parser.runRule, hm1, hm2, hlit]
            exact Parser.cursorOK_panicked (by simp)
          | some lit =>
            simp only [Parser.runRule, hm1, hm2, hlit]
            exact Parser.cursorOK_ok hc2
        | none =>
          obtain ⟨r3, c3, hm3, hc3⟩ := Parser.match_token_wf pre eofTok heof c2 hc2 TokenType.True
          cases r3 with
          | some tok =>
            simp only [Parser.runRule, hm1, hm2, hm3]
            exact Parser.cursorOK_ok hc3
          | none =>
            obtain ⟨r4, c4, hm4, hc4⟩ :=
              Parser.match_token_wf pre eofTok heof c3 hc3 TokenType.False
            cases r4 with
            | some tok =>
              simp only [Parser.runRule, hm1, hm2, hm3, hm4]
              exact Parser.cursorOK_ok hc4
            | none =>
              obtain ⟨r5, c5, hm5, hc5⟩ :=
                Parser.match_token_wf pre eofTok heof c4 hc4 TokenType.Nil
              cases r5 with
              | some tok =>
                simp only [Parser.runRule, hm1, hm2, hm3, hm4, hm5]
                exact Parser.cursorOK_ok hc5
              | none =>
                obtain ⟨r6, c6, hm6, hc6⟩ :=
                  Parser.match_token_wf pre eofTok heof c5 hc5 TokenType.LeftParen
                cases r6 with
                | none =>
                  simp only [Parser.runRule, hm1, hm2, hm3, hm4, hm5, hm6]
                  exact Parser.cursorOK_err hc6
                | some tok =>
                  cases hres : Parser.runRule (pre ++ [eofTok]) fuel
                      Parser.RuleKind.expression c6 with
                  | ok e c7 =>
                    have hc7 := (ih Parser.RuleKind.expression c6 hc6).2.1 e c7 hres
                    have hcw := Parser.consume_wf pre eofTok heof c7 hc7 TokenType.RightParen
                      ("Expect \x27)\x27 after expression.")
                    cases hcs : Parser.consume (pre ++ [eofTok]) c7 TokenType.RightParen
                        ("Expect \x27)\x27 after expression.") with
                    | ok t c8 =>
                      have hc8 := hcw.2.1 t c8 hcs
                      simp only [Parser.runRule, hm1, hm2, hm3, hm4, hm5, hm6, hres, hcs]
                      exact Parser.cursorOK_ok hc8
                    | err pe c8 =>
                      simp only [Parser.runRule, hm1, hm2, hm3, hm4, hm5, hm6, hres, hcs]
                      exact Parser.cursorOK_panicked (by simp)
                    | panicked k =>
                      exact absurd hcs (hcw.1 k)
                    | fuelOut =>
                      simp only [Parser.runRule, hm1, hm2, hm3, hm4, hm5, hm6, hres, hcs]
                      exact Parser.cursorOK_fuelOut
                  | err er c7 =>
                    have hc7 := (ih Parser.RuleKind.expression c6 hc6).2.2 er c7 hres
                    simp only [Parser.runRule, hm1, hm2, hm3, hm4, hm5, hm6, hres]
                    exact Parser.cursorOK_err hc7
                  | panicked k =>
                    have hk : k ≠ Parser.PanicKind.indexOut := by
                      intro hkk
                      exact (ih Parser.RuleKind.expression c6 hc6).1
                        (by rw [hkk] at hres; exact hres)
                    simp only [Parser.runRule, hm1, hm2, hm3, hm4, hm5, hm6, hres]
                    exact Parser.cursorOK_panicked hk
                  | fuelOut =>
                    simp only [Parser.runRule, hm1, hm2, hm3, hm4, hm5, hm6, hres]
                    exact Parser.cursorOK_fuelOut

/-- Witness for C10 at the concrete one-token sequence `[Eof]`: parsing
from cursor 0 with fuel 5 neither index-panics nor moves the cursor past
index 0. -/
theorem parser_cursor_in_bounds_witness :
    Parser.cursorOK (List.length ([] : List Token))
      (Parser.runRule (([] : List Token) ++ [mkTok TokenType.Eof ("")]) 5
        Parser.RuleKind.expression 0) :=
  parser_cursor_in_bounds [] (mkTok TokenType.Eof ("")) rfl (by simp) 5
    Parser.RuleKind.expression 0 (by decide)

/-- Helper: an ASCII character occupies one UTF-8 byte. -/
theorem Scanner.ascii_utf8Size {c : Char} (h : c.toNat < 128) : c.utf8Size = 1 := by
  unfold Char.utf8Size
  have hle : c.val ≤ UInt32.ofNatCore 0x7F (by decide) := by
    show c.toNat ≤ 127
    omega
  rw [if_pos hle]

/-- Helper: a decimal digit is an ASCII character. -/
theorem Scanner.digit_ascii {c : Char} (h : c.isDigit = true) : c.toNat < 128 := by
  simp [Char.isDigit] at h
  exact Nat.lt_of_le_of_lt (show c.toNat ≤ 57 from h.2) (by decide)

/-- Helper: on ASCII text the UTF-8 byte count equals the character
count, so the scanner's byte/char confusion is invisible. -/
theorem Scanner.byteLen_ascii {cs : List Char} (h : ∀ c ∈ cs, c.toNat < 128) :
    byteLen cs = cs.length := by
  induction cs with
  | nil => rfl
  | cons c cs ih =>
    have h1 : c.utf8Size = 1 := Scanner.ascii_utf8Size (h c (by simp))
    have h2 := ih (fun x hx => h x (by simp [hx]))
    simp only [byteLen, List.map_cons, List.sum_cons, List.length_cons] at h2 ⊢
    rw [h1]
    omega

/-- Helper: the head of a `dropWhile` residue fails the predicate. -/
theorem dropWhile_head_false {p : Char → Bool} {l : List Char} {c : Char} {t : List Char}
    (h : l.dropWhile p = c :: t) : p c = false := by
  induction l with
  | nil => simp at h
  | cons a l ih =>
    rw [List.dropWhile_cons] at h
    by_cases hp : p a
    · rw [if_pos hp] at h
      exact ih h
    · rw [if_neg hp] at h
      cases h
      simpa using hp

/-- Helper: `takeWhile`/`dropWhile` on an all-satisfying prefix followed by
a failing character split exactly at that character. -/
theorem takeWhile_append_not {p : Char → Bool} {l1 : List Char} {c : Char} {l2 : List Char}
    (hall : ∀ x ∈ l1, p x = true) (hc : p c = false) :
    (l1 ++ c :: l2).takeWhile p = l1 ∧ (l1 ++ c :: l2).dropWhile p = c :: l2 := by
  induction l1 with
  | nil => simp [List.takeWhile_cons, List.dropWhile_cons, hc]
  | cons a l ih =>
    have hpa : p a = true := hall a (by simp)
    have ihh := ih (fun x hx => hall x (by simp [hx]))
    simp [List.takeWhile_cons, List.dropWhile_cons, hpa, ihh.1, ihh.2]

/-- Helper: `str::parse::<f64>` (as modelled) succeeds on a nonempty pure
digit run. -/
theorem parseFloatQ_digits {cs : List Char} (hne : cs ≠ [])
    (hall : ∀ x ∈ cs, x.isDigit = true) :
    ∃ q, parseFloatQ cs = some q := by
  have ht : cs.takeWhile Char.isDigit = cs := List.takeWhile_eq_self_iff.mpr hall
  have hd : cs.dropWhile Char.isDigit = [] := List.dropWhile_eq_nil_iff.mpr hall
  refine ⟨((cs.foldl (fun a c => 10 * a + (c.toNat - 48)) 0 : Nat) : Rat), ?_⟩
  simp only [parseFloatQ, ht, hd]
  rw [if_neg hne]

/-- Helper: `str::parse::<f64>` (as modelled) succeeds on a digit run,
a dot, and a second nonempty digit run. -/
theorem parseFloatQ_dot {ds fs : List Char} (hdne : ds ≠ []) (hfne : fs ≠ [])
    (hd : ∀ x ∈ ds, x.isDigit = true) (hf : ∀ x ∈ fs, x.isDigit = true) :
    ∃ q, parseFloatQ (ds ++ '.' :: fs) = some q := by
  obtain ⟨ht, hdp⟩ := @takeWhile_append_not Char.isDigit ds '.' fs hd (by decide)
  refine ⟨((ds.foldl (fun a c => 10 * a + (c.toNat - 48)) 0 : Nat) : Rat)
    + ((fs.foldl (fun a c => 10 * a + (c.toNat - 48)) 0 : Nat) : Rat) / (10 ^ fs.length : Nat), ?_⟩
  simp only [parseFloatQ, ht, hdp]
  rw [if_neg hdne]
  rw [if_pos ⟨hfne, List.all_eq_true.mpr hf⟩]

/-- Helper: on ASCII text the digit loop of `Scanner::number` consumes
exactly the maximal digit run starting at the cursor. -/
theorem Scanner.digitsLoop_spec : ∀ (fuel : Nat) (s : ScanState),
    (∀ c ∈ s.source, c.toNat < 128) →
    s.source.length - s.current < fuel →
    Scanner.digitsLoop fuel s =
      some { s with current :=
        s.current + ((s.source.drop s.current).takeWhile Char.isDigit).length } := by
  intro fuel
  induction fuel with
  | zero =>
    intro s h1 h3
    exact absurd h3 (by omega)
  | succ fuel ih =>
    intro s hascii hfuel
    have hlen : byteLen s.source = s.source.length := Scanner.byteLen_ascii hascii
    by_cases hend : byteLen s.source ≤ s.current
    · have hdrop : s.source.drop s.current = [] := List.drop_eq_nil_iff.mpr (by omega)
      have hstep : Scanner.digitsLoop (fuel + 1) s = some s := by
        simp only [Scanner.digitsLoop]
        rw [if_pos hend]
      rw [hstep, hdrop]
      rfl
    · have hlt : s.current < s.source.length := by omega
      have hget : s.source[s.current]? = some s.source[s.current] := List.getElem?_eq_getElem hlt
      have hdc : s.source.drop s.current = s.source[s.current] :: s.source.drop (s.current + 1) :=
        List.drop_eq_getElem_cons hlt
      by_cases hdig : (s.source[s.current]).isDigit
      · have hrec := ih { s with current := s.current + 1 } hascii
          (show s.source.length - (s.current + 1) < fuel from by omega)
        dsimp only at hrec
        have harith : s.current + 1 + ((s.source.drop (s.current + 1)).takeWhile Char.isDigit).length
            = s.current + ((s.source.drop s.current).takeWhile Char.isDigit).length := by
          rw [hdc,
            List.takeWhile_cons Char.isDigit s.source[s.current] (s.source.drop (s.current + 1)),
            if_pos hdig]
          simp only [List.length_cons]
          omega
        have hstep : Scanner.digitsLoop (fuel + 1) s =
            Scanner.digitsLoop fuel { s with current := s.current + 1 } := by
          simp only [Scanner.digitsLoop, hget]
          rw [if_neg hend, if_pos hdig]
        rw [hstep, hrec, harith]
      · have htw : (s.source.drop s.current).takeWhile Char.isDigit = [] := by
          rw [hdc,
            List.takeWhile_cons Char.isDigit s.source[s.current] (s.source.drop (s.current + 1)),
            if_neg hdig]
        have hstep : Scanner.digitsLoop (fuel + 1) s = some s := by
          simp only [Scanner.digitsLoop, hget]
          rw [if_neg hend, if_neg hdig]
        rw [hstep, htw]
        rfl

/-- Helper: on ASCII text the alphanumeric loop of `Scanner::identifier`
completes without panicking, preserving everything but the cursor, which
stays in bounds. -/
theorem Scanner.identifierLoop_wf : ∀ (fuel : Nat) (s : ScanState),
    (∀ c ∈ s.source, c.toNat < 128) →
    s.source.length - s.current < fuel →
    ∃ s', Scanner.identifierLoop fuel s = some s' ∧ s'.source = s.source ∧
      s'.tokens = s.tokens ∧ s'.start = s.start ∧ s'.line = s.line ∧
      s.current ≤ s'.current ∧ (s.current ≤ s.source.length → s'.current ≤ s.source.length) := by
  intro fuel
  induction fuel with
  | zero =>
    intro s h1 h3
    exact absurd h3 (by omega)
  | succ fuel ih =>
    intro s hascii hfuel
    by_cases hend : byteLen s.source ≤ s.current
    · refine ⟨s, ?_, rfl, rfl, rfl, rfl, Nat.le_refl _, fun hc => hc⟩
      simp only [Scanner.identifierLoop]
      rw [if_pos hend]
    · have hlen : byteLen s.source = s.source.length := Scanner.byteLen_ascii hascii
      have hlt : s.current < s.source.length := by omega
      have hget : s.source[s.current]? = some s.source[s.current] := List.getElem?_eq_getElem hlt
      by_cases hd : (s.source[s.current]).isAlphanum
      · obtain ⟨s', hs', h1, h2, h3, h4, h5, h6⟩ := ih { s with current := s.current + 1 } hascii
          (show s.source.length - (s.current + 1) < fuel from by omega)
        dsimp only at hs' h1 h2 h3 h4 h5 h6
        have hstep : Scanner.identifierLoop (fuel + 1) s =
            Scanner.identifierLoop fuel { s with current := s.current + 1 } := by
          simp only [Scanner.identifierLoop, hget]
          rw [if_neg hend, if_pos hd]
        exact ⟨s', by rw [hstep, hs'], h1, h2, h3, h4, by omega, fun hc => h6 (by omega)⟩
      · refine ⟨s, ?_, rfl, rfl, rfl, rfl, Nat.le_refl _, fun hc => hc⟩
        simp only [Scanner.identifierLoop, hget]
        rw [if_neg hend, if_neg hd]

/-- Helper: on ASCII text the comment loop (`//` arm of
`Scanner::scan_token`) completes without panicking, preserving everything
but the cursor, which stays in bounds. -/
theorem Scanner.commentLoop_wf : ∀ (fuel : Nat) (s : ScanState),
    (∀ c ∈ s.source, c.toNat < 128) →
    s.source.length - s.current < fuel →
    ∃ s', Scanner.commentLoop fuel s = some s' ∧ s'.source = s.source ∧
      s'.tokens = s.tokens ∧ s'.start = s.start ∧ s'.line = s.line ∧
      s.current ≤ s'.current ∧ (s.current ≤ s.source.length → s'.current ≤ s.source.length) := by
  intro fuel
  induction fuel with
  | zero =>
    intro s h1 h3
    exact absurd h3 (by omega)
  | succ fuel ih =>
    intro s hascii hfuel
    by_cases hend : byteLen s.source ≤ s.current
    · refine ⟨s, ?_, rfl, rfl, rfl, rfl, Nat.le_refl _, fun hc => hc⟩
      simp only [Scanner.commentLoop]
      rw [if_pos hend]
    · have hlen : byteLen s.source = s.source.length := Scanner.byteLen_ascii hascii
      have hlt : s.current < s.source.length := by omega
      have hget : s.source[s.current]? = some s.source[s.current] := List.getElem?_eq_getElem hlt
      by_cases hd : s.source[s.current] = '\n'
      · refine ⟨s, ?_, rfl, rfl, rfl, rfl, Nat.le_refl _, fun hc => hc⟩
        simp only [Scanner.commentLoop, hget]
        rw [if_neg hend, if_pos hd]
      · obtain ⟨s', hs', h1, h2, h3, h4, h5, h6⟩ := ih { s with current := s.current + 1 } hascii
          (show s.source.length - (s.current + 1) < fuel from by omega)
        dsimp only at hs' h1 h2 h3 h4 h5 h6
        have hstep : Scanner.commentLoop (fuel + 1) s =
            Scanner.commentLoop fuel { s with current := s.current + 1 } := by
          simp only [Scanner.commentLoop, hget]
          rw [if_neg hend, if_neg hd]
        exact ⟨s', by rw [hstep, hs'], h1, h2, h3, h4, by omega, fun hc => h6 (by omega)⟩

/-- Helper: on ASCII text the string-literal loop of `Scanner::string`
completes without panicking, preserving the source, token list and
`start`, with an in-bounds cursor (the line counter may grow). -/
theorem Scanner.stringLoop_wf : ∀ (fuel : Nat) (s : ScanState),
    (∀ c ∈ s.source, c.toNat < 128) →
    s.source.length - s.current < fuel →
    ∃ s', Scanner.stringLoop fuel s = some s' ∧ s'.source = s.source ∧
      s'.tokens = s.tokens ∧ s'.start = s.start ∧
      s.current ≤ s'.current ∧ (s.current ≤ s.source.length → s'.current ≤ s.source.length) := by
  intro fuel
  induction fuel with
  | zero =>
    intro s h1 h3
    exact absurd h3 (by omega)
  | succ fuel ih =>
    intro s hascii hfuel
    by_cases hend : byteLen s.source ≤ s.current
    · refine ⟨s, ?_, rfl, rfl, rfl, Nat.le_refl _, fun hc => hc⟩
      simp only [Scanner.stringLoop]
      rw [if_pos hend]
    · have hlen : byteLen s.source = s.source.length := Scanner.byteLen_ascii hascii
      have hlt : s.current < s.source.length := by omega
      have hget : s.source[s.current]? = some s.source[s.current] := List.getElem?_eq_getElem hlt
      by_cases hq : s.source[s.current] = '"'
      · refine ⟨s, ?_, rfl, rfl, rfl, Nat.le_refl _, fun hc => hc⟩
        simp only [Scanner.stringLoop, hget]
        rw [if_neg hend, if_pos hq]
      · by_cases hn : s.source[s.current] = '\n'
        · obtain ⟨s', hs', h1, h2, h3, h5, h6⟩ :=
            ih { s with current := s.current + 1, line := s.line + 1 } hascii
              (show s.source.length - (s.current + 1) < fuel from by omega)
          dsimp only at hs' h1 h2 h3 h5 h6
          have hstep : Scanner.stringLoop (fuel + 1) s =
              Scanner.stringLoop fuel { s with current := s.current + 1, line := s.line + 1 } := by
            simp only [Scanner.stringLoop, hget]
            rw [if_neg hend, if_neg hq, if_pos hn]
          exact ⟨s', by rw [hstep, hs'], h1, h2, h3, by omega, fun hc => h6 (by omega)⟩
        · obtain ⟨s', hs', h1, h2, h3, h5, h6⟩ := ih { s with current := s.current + 1 } hascii
            (show s.source.length - (s.current + 1) < fuel from by omega)
          dsimp only at hs' h1 h2 h3 h5 h6
          have hstep : Scanner.stringLoop (fuel + 1) s =
              Scanner.stringLoop fuel { s with current := s.current + 1 } := by
            simp only [Scanner.stringLoop, hget]
            rw [if_neg hend, if_neg hq, if_neg hn]
          exact ⟨s', by rw [hstep, hs'], h1, h2, h3, by omega, fun hc => h6 (by omega)⟩

/-- Helper: on ASCII text `Scanner::match_second` completes without
panicking, consuming at most one in-bounds character and touching nothing
else. -/
theorem Scanner.match_second_wf (expected : Char) (s : ScanState)
    (hascii : ∀ c ∈ s.source, c.toNat < 128)
    (hcur : s.current ≤ s.source.length) :
    ∃ b s', Scanner.match_second expected s = some (b, s') ∧ s'.source = s.source ∧
      s'.tokens = s.tokens ∧ s'.start = s.start ∧ s'.line = s.line ∧
      s.current ≤ s'.current ∧ s'.current ≤ s.source.length := by
  have hlen : byteLen s.source = s.source.length := Scanner.byteLen_ascii hascii
  by_cases hend : Scanner.is_at_end s
  · refine ⟨false, s, ?_, rfl, rfl, rfl, rfl, Nat.le_refl _, hcur⟩
    simp only [Scanner.match_second]
    rw [if_pos hend]
  · have hend' : ¬ byteLen s.source ≤ s.current := by
      simpa [Scanner.is_at_end] using hend
    have hlt : s.current < s.source.length := by omega
    have hget : s.source[s.current]? = some s.source[s.current] := List.getElem?_eq_getElem hlt
    by_cases hc : s.source[s.current] ≠ expected
    · refine ⟨false, s, ?_, rfl, rfl, rfl, rfl, Nat.le_refl _, hcur⟩
      simp only [Scanner.match_second, hget]
      rw [if_neg hend, if_pos hc]
    · refine ⟨true, { s with current := s.current + 1 }, ?_, rfl, rfl, rfl, rfl,
        show s.current ≤ s.current + 1 from by omega,
        show s.current + 1 ≤ s.source.length from by omega⟩
      simp only [Scanner.match_second, hget]
      rw [if_neg hend, if_neg hc]

/-- Helper: once the cursors delimit a lexeme that parses, the tail of
`Scanner::number` pushes exactly the number token for that lexeme. -/
theorem Scanner.numberFinish_spec (s1 : ScanState) (lex : List Char)
    (hslice : (s1.source.drop s1.start).take (s1.current - s1.start) = lex)
    (v : Rat) (hv : parseFloatQ lex = some v) :
    Scanner.numberFinish s1 = some { s1 with tokens := s1.tokens ++
      [{ token_type := TokenType.Number, lexeme := String.mk lex,
         literal := some (Literal.Number v), line := s1.line }] } := by
  simp only [Scanner.numberFinish, hslice, hv, Scanner.add_token, Scanner.sliceLexeme]

/-- Helper: `takeWhile` never lengthens a list. -/
theorem takeWhileLen_le (p : Char → Bool) (l : List Char) :
    (l.takeWhile p).length ≤ l.length := by
  induction l with
  | nil => simp
  | cons a l ih =>
    by_cases h : p a
    · rw [List.takeWhile_cons p a l, if_pos h]
      simp only [List.length_cons]
      omega
    · rw [List.takeWhile_cons p a l, if_neg h]
      simp

/-- Helper: the numeral span is never longer than the text it scans. -/
theorem numeralSpan_length_le (cs : List Char) : (numeralSpan cs).length ≤ cs.length := by
  have hsplit : cs.takeWhile Char.isDigit ++ cs.dropWhile Char.isDigit = cs :=
    List.takeWhile_append_dropWhile Char.isDigit cs
  have hlen : (cs.takeWhile Char.isDigit).length + (cs.dropWhile Char.isDigit).length
      = cs.length := by
    rw [← List.length_append, hsplit]
  simp only [numeralSpan]
  split
  · rename_i rest heq
    split
    · exact takeWhileLen_le Char.isDigit cs
    · have h1 : (rest.takeWhile Char.isDigit).length ≤ rest.length :=
        takeWhileLen_le Char.isDigit rest
      rw [heq] at hlen
      simp only [List.length_append, List.length_cons]
      simp only [List.length_cons] at hlen
      omega
  · exact takeWhileLen_le Char.isDigit cs

/-- Helper: a numeral span beginning with a digit is nonempty. -/
theorem numeralSpan_pos {c : Char} {tail : List Char} (hc : c.isDigit = true) :
    0 < (numeralSpan (c :: tail)).length := by
  have htw : (c :: tail).takeWhile Char.isDigit = c :: tail.takeWhile Char.isDigit := by
    rw [List.takeWhile_cons Char.isDigit c tail, if_pos hc]
  simp only [numeralSpan, htw]
  split
  · split
    · simp
    · simp
  · simp

/-- Helper: splitting `take` across an append. -/
theorem take_append_len (l1 l2 : List Char) (k : Nat) :
    (l1 ++ l2).take (l1.length + k) = l1 ++ l2.take k := by
  induction l1 with
  | nil => simp
  | cons a l ih =>
    simp only [List.cons_append, List.length_cons]
    rw [show l.length + 1 + k = (l.length + k) + 1 from by omega, List.take_succ_cons, ih]

/-- Helper: on ASCII text, `Scanner::number` invoked right after the scan
loop consumed one digit (so `current = start + 1` and the text from
`start` on is `c :: tail` with `c` a digit) consumes exactly the numeral
span and pushes one number token whose lexeme is that span and whose
literal is its parsed value. -/
theorem Scanner.number_spec (s : ScanState)
    (hascii : ∀ c ∈ s.source, c.toNat < 128)
    (c : Char) (tail : List Char)
    (hdrop : s.source.drop s.start = c :: tail)
    (hcur : s.current = s.start + 1)
    (hc : c.isDigit = true) :
    ∃ v, parseFloatQ (numeralSpan (c :: tail)) = some v ∧
      Scanner.number s = some { s with
        tokens := s.tokens ++ [Token.mk TokenType.Number
          (String.mk (numeralSpan (c :: tail))) (some (Literal.Number v)) s.line],
        current := s.start + (numeralSpan (c :: tail)).length } := by
  have hlen : byteLen s.source = s.source.length := Scanner.byteLen_ascii hascii
  have hstartlt : s.start < s.source.length := by
    rcases Nat.lt_or_ge s.start s.source.length with h | h
    · exact h
    · rw [List.drop_eq_nil_iff.mpr h] at hdrop
      cases hdrop
  have hlendrop : (s.source.drop s.start).length = s.source.length - s.start :=
    List.length_drop s.start s.source
  have htaillen : s.source.length = s.start + 1 + tail.length := by
    rw [hdrop] at hlendrop
    simp only [List.length_cons] at hlendrop
    omega
  have hdtail : s.source.drop (s.start + 1) = tail := by
    have h1 := List.drop_drop 1 s.start s.source
    rw [hdrop] at h1
    simp only [List.drop_succ_cons, List.drop_zero] at h1
    exact h1.symm
  have htailsplit : tail.takeWhile Char.isDigit ++ tail.dropWhile Char.isDigit = tail :=
    List.takeWhile_append_dropWhile Char.isDigit tail
  have htwdig : ∀ x ∈ tail.takeWhile Char.isDigit, x.isDigit = true :=
    fun x hx => List.mem_takeWhile_imp hx
  have htwlen : (tail.takeWhile Char.isDigit).length + (tail.dropWhile Char.isDigit).length
      = tail.length := by
    rw [← List.length_append, htailsplit]
  have hrest : s.source.drop (s.start + 1 + (tail.takeWhile Char.isDigit).length)
      = tail.dropWhile Char.isDigit := by
    have h2 := List.drop_left (tail.takeWhile Char.isDigit) (tail.dropWhile Char.isDigit)
    rw [htailsplit] at h2
    have h1 := List.drop_drop (tail.takeWhile Char.isDigit).length (s.start + 1) s.source
    rw [hdtail, h2] at h1
    exact h1.symm
  have hd1 := Scanner.digitsLoop_spec (byteLen s.source + 1) s hascii (by omega)
  rw [hcur, hdtail] at hd1
  have hspanT : (c :: tail).takeWhile Char.isDigit = c :: tail.takeWhile Char.isDigit := by
    rw [List.takeWhile_cons Char.isDigit c tail, if_pos hc]
  have hspanD : (c :: tail).dropWhile Char.isDigit = tail.dropWhile Char.isDigit := by
    rw [List.dropWhile_cons, if_pos hc]
  have hslice1 : (s.source.drop s.start).take
      (s.start + 1 + (tail.takeWhile Char.isDigit).length - s.start)
      = c :: tail.takeWhile Char.isDigit := by
    rw [hdrop, show s.start + 1 + (tail.takeWhile Char.isDigit).length - s.start
      = (tail.takeWhile Char.isDigit).length + 1 from by omega, List.take_succ_cons]
    congr 1
    have h3 := take_append_len (tail.takeWhile Char.isDigit) (tail.dropWhile Char.isDigit) 0
    simp only [List.take_zero, List.append_nil, Nat.add_zero] at h3
    rw [htailsplit] at h3
    exact h3
  cases hdw : tail.dropWhile Char.isDigit with
  | nil =>
    have hspan : numeralSpan (c :: tail) = c :: tail.takeWhile Char.isDigit := by
      simp only [numeralSpan, hspanT, hspanD, hdw]
    have hP2 : s.start + 1 + (tail.takeWhile Char.isDigit).length = s.source.length := by
      rw [hdw] at htwlen
      simp at htwlen
      omega
    have hatend : Scanner.is_at_end
        { s with current := s.start + 1 + (tail.takeWhile Char.isDigit).length } = true := by
      simp only [Scanner.is_at_end]
      simp only [decide_eq_true_eq]
      omega
    have hpeek : Scanner.peek
        { s with current := s.start + 1 + (tail.takeWhile Char.isDigit).length }
        = some '\x00' := by
      simp [Scanner.peek, hatend]
    obtain ⟨v, hv⟩ := @parseFloatQ_digits (c :: tail.takeWhile Char.isDigit) (by simp)
      (by
        intro x hx
        rcases List.mem_cons.mp hx with h | h
        · rw [h]; exact hc
        · exact htwdig x h)
    refine ⟨v, by rw [hspan]; exact hv, ?_⟩
    have hfin := Scanner.numberFinish_spec
      { s with current := s.start + 1 + (tail.takeWhile Char.isDigit).length }
      (c :: tail.takeWhile Char.isDigit) (by dsimp only; exact hslice1) v hv
    simp only [Scanner.number, hd1, hpeek]
    rw [if_neg (by decide : ¬ ('\x00' = '.'))]
    rw [hfin]
    rw [hspan]
    have hcnt : s.start + (c :: tail.takeWhile Char.isDigit).length
        = s.start + 1 + (tail.takeWhile Char.isDigit).length := by
      simp only [List.length_cons]
      omega
    rw [hcnt]
  | cons r rest2 =>
    have hP2lt : s.start + 1 + (tail.takeWhile Char.isDigit).length < s.source.length := by
      rw [hdw] at htwlen
      simp only [List.length_cons] at htwlen
      omega
    have hnotend : Scanner.is_at_end
        { s with current := s.start + 1 + (tail.takeWhile Char.isDigit).length } = false := by
      simp only [Scanner.is_at_end]
      simp only [decide_eq_false_iff_not]
      omega
    have hpk : s.source[s.start + 1 + (tail.takeWhile Char.isDigit).length]? = some r := by
      have h3 := List.getElem?_drop s.source
        (s.start + 1 + (tail.takeWhile Char.isDigit).length) 0
      rw [hrest, hdw] at h3
      simpa using h3.symm
    have hpeek : Scanner.peek
        { s with current := s.start + 1 + (tail.takeWhile Char.isDigit).length }
        = some r := by
      simp only [Scanner.peek, hnotend]
      rw [if_neg (by simp)]
      exact hpk
    have hrdig : r.isDigit = false := by
      have := dropWhile_head_false (p := Char.isDigit) (by rw [hdw] : tail.dropWhile Char.isDigit = r :: rest2)
      exact this
    by_cases hrdot : r = '.'
    · subst hrdot
      cases rest2 with
      | nil =>
        have hlen2 : s.source.length
            = s.start + 1 + (tail.takeWhile Char.isDigit).length + 1 := by
          have h4 := List.length_drop
            (s.start + 1 + (tail.takeWhile Char.isDigit).length) s.source
          rw [hrest, hdw] at h4
          simp only [List.length_cons, List.length_nil] at h4
          omega
        have hcond : byteLen s.source
            ≤ s.start + 1 + (tail.takeWhile Char.isDigit).length + 1 := by omega
        have hpn : Scanner.peek_next
            { s with current := s.start + 1 + (tail.takeWhile Char.isDigit).length }
            = some '\x00' := by
          simp [Scanner.peek_next, hcond]
        have hspan : numeralSpan (c :: tail) = c :: tail.takeWhile Char.isDigit := by
          simp only [numeralSpan, hspanT, hspanD, hdw]
          simp
        obtain ⟨v, hv⟩ := @parseFloatQ_digits (c :: tail.takeWhile Char.isDigit) (by simp)
          (by
            intro x hx
            rcases List.mem_cons.mp hx with h | h
            · rw [h]
              exact hc
            · exact htwdig x h)
        refine ⟨v, by rw [hspan]; exact hv, ?_⟩
        have hfin := Scanner.numberFinish_spec
          { s with current := s.start + 1 + (tail.takeWhile Char.isDigit).length }
          (c :: tail.takeWhile Char.isDigit) (by dsimp only; exact hslice1) v hv
        have hx0 : (('\x00').isDigit = true) = False := by simp
        have hcnt : s.start + (c :: tail.takeWhile Char.isDigit).length
            = s.start + 1 + (tail.takeWhile Char.isDigit).length := by
          simp only [List.length_cons]
          omega
        rw [hspan, hcnt]
        simp only [Scanner.number, hd1, hpeek, if_true, hpn, hx0, if_false, hfin]
      | cons r2 rest3 =>
        have hlen3 : s.start + 1 + (tail.takeWhile Char.isDigit).length + 1
            < s.source.length := by
          have h4 := List.length_drop
            (s.start + 1 + (tail.takeWhile Char.isDigit).length) s.source
          rw [hrest, hdw] at h4
          simp only [List.length_cons] at h4
          omega
        have hpk2 : s.source[s.start + 1 + (tail.takeWhile Char.isDigit).length + 1]?
            = some r2 := by
          have h3 := List.getElem?_drop s.source
            (s.start + 1 + (tail.takeWhile Char.isDigit).length) 1
          rw [hrest, hdw] at h3
          simpa using h3.symm
        have hcond : ¬ (byteLen s.source
            ≤ s.start + 1 + (tail.takeWhile Char.isDigit).length + 1) := by omega
        have hpn : Scanner.peek_next
            { s with current := s.start + 1 + (tail.takeWhile Char.isDigit).length }
            = some r2 := by
          simp [Scanner.peek_next, hcond, hpk2]
        by_cases hr2 : r2.isDigit = true
        · have hfw : (r2 :: rest3).takeWhile Char.isDigit
              = r2 :: rest3.takeWhile Char.isDigit := by
            rw [List.takeWhile_cons Char.isDigit r2 rest3, if_pos hr2]
          have hfwne : (r2 :: rest3).takeWhile Char.isDigit ≠ [] := by
            rw [hfw]
            simp
          have hspan : numeralSpan (c :: tail)
              = (c :: tail.takeWhile Char.isDigit)
                ++ '.' :: (r2 :: rest3).takeWhile Char.isDigit := by
            simp only [numeralSpan, hspanT, hspanD, hdw]
            rw [if_neg hfwne]
          have hadv : Scanner.advance
              { s with current := s.start + 1 + (tail.takeWhile Char.isDigit).length }
              = some ('.', { s with
                  current := s.start + 1 + (tail.takeWhile Char.isDigit).length + 1 }) := by
            simp [Scanner.advance, hpk]
          have hdrop3 : s.source.drop
              (s.start + 1 + (tail.takeWhile Char.isDigit).length + 1) = r2 :: rest3 := by
            have h1 := List.drop_drop 1
              (s.start + 1 + (tail.takeWhile Char.isDigit).length) s.source
            rw [hrest, hdw] at h1
            simp only [List.drop_succ_cons, List.drop_zero] at h1
            exact h1.symm
          have hd2 := Scanner.digitsLoop_spec (byteLen s.source + 1)
            { s with current := s.start + 1 + (tail.takeWhile Char.isDigit).length + 1 }
            hascii (show s.source.length - _ < _ from by omega)
          dsimp only at hd2
          rw [hdrop3] at hd2
          have htail2 : tail = tail.takeWhile Char.isDigit ++ '.' :: r2 :: rest3 := by
            conv_lhs => rw [← htailsplit]
            rw [hdw]
          have hslice2 : (s.source.drop s.start).take
              (s.start + 1 + (tail.takeWhile Char.isDigit).length + 1
                + ((r2 :: rest3).takeWhile Char.isDigit).length - s.start)
              = (c :: tail.takeWhile Char.isDigit)
                ++ '.' :: (r2 :: rest3).takeWhile Char.isDigit := by
            rw [hdrop]
            rw [show s.start + 1 + (tail.takeWhile Char.isDigit).length + 1
                + ((r2 :: rest3).takeWhile Char.isDigit).length - s.start
              = ((tail.takeWhile Char.isDigit).length
                + (1 + ((r2 :: rest3).takeWhile Char.isDigit).length)) + 1 from by omega]
            rw [List.take_succ_cons]
            simp only [List.cons_append]
            congr 1
            have h5 := take_append_len (tail.takeWhile Char.isDigit) ('.' :: r2 :: rest3)
              (1 + ((r2 :: rest3).takeWhile Char.isDigit).length)
            rw [← htail2] at h5
            rw [h5]
            rw [show 1 + ((r2 :: rest3).takeWhile Char.isDigit).length
              = ((r2 :: rest3).takeWhile Char.isDigit).length + 1 from by omega]
            rw [List.take_succ_cons]
            have h6 := take_append_len ((r2 :: rest3).takeWhile Char.isDigit)
              ((r2 :: rest3).dropWhile Char.isDigit) 0
            simp only [List.take_zero, List.append_nil, Nat.add_zero] at h6
            rw [List.takeWhile_append_dropWhile] at h6
            rw [h6]

          obtain ⟨v, hv⟩ := parseFloatQ_dot
            (show (c :: tail.takeWhile Char.isDigit) ≠ [] from by simp)
            (show (r2 :: rest3).takeWhile Char.isDigit ≠ [] from hfwne)
            (by
              intro x hx
              rcases List.mem_cons.mp hx with h | h
              · rw [h]
                exact hc
              · exact htwdig x h)
            (fun x hx => List.mem_takeWhile_imp hx)
          refine ⟨v, by rw [hspan]; exact hv, ?_⟩
          have hfin := Scanner.numberFinish_spec
            { s with current := s.start + 1 + (tail.takeWhile Char.isDigit).length + 1
              + ((r2 :: rest3).takeWhile Char.isDigit).length }
            ((c :: tail.takeWhile Char.isDigit)
              ++ '.' :: (r2 :: rest3).takeWhile Char.isDigit)
            (by dsimp only; exact hslice2) v hv
          have hcnt : s.start + ((c :: tail.takeWhile Char.isDigit)
              ++ '.' :: (r2 :: rest3).takeWhile Char.isDigit).length
              = s.start + 1 + (tail.takeWhile Char.isDigit).length + 1
                + ((r2 :: rest3).takeWhile Char.isDigit).length := by
            simp only [List.length_append, List.length_cons]
            omega
          rw [hspan, hcnt]
          simp only [Scanner.number, hd1, hpeek, if_true, hpn]
          rw [if_pos hr2]
          simp only [hadv, hd2, hfin]
        · have hspan : numeralSpan (c :: tail) = c :: tail.takeWhile Char.isDigit := by
            simp only [numeralSpan, hspanT, hspanD, hdw]
            rw [if_pos (by rw [List.takeWhile_cons Char.isDigit r2 rest3, if_neg hr2])]
          obtain ⟨v, hv⟩ := @parseFloatQ_digits (c :: tail.takeWhile Char.isDigit)
            (by simp)
            (by
              intro x hx
              rcases List.mem_cons.mp hx with h | h
              · rw [h]
                exact hc
              · exact htwdig x h)
          refine ⟨v, by rw [hspan]; exact hv, ?_⟩
          have hfin := Scanner.numberFinish_spec
            { s with current := s.start + 1 + (tail.takeWhile Char.isDigit).length }
            (c :: tail.takeWhile Char.isDigit) (by dsimp only; exact hslice1) v hv
          have hcnt : s.start + (c :: tail.takeWhile Char.isDigit).length
              = s.start + 1 + (tail.takeWhile Char.isDigit).length := by
            simp only [List.length_cons]
            omega
          rw [hspan, hcnt]
          simp only [Scanner.number, hd1, hpeek, if_true, hpn]
          rw [if_neg hr2]
          simp only [hfin]
    · have hspan : numeralSpan (c :: tail) = c :: tail.takeWhile Char.isDigit := by
        simp only [numeralSpan, hspanT, hspanD, hdw]
        split
        · rename_i rest heq
          injection heq with h1 h2
          exact absurd h1 hrdot
        · rfl
      obtain ⟨v, hv⟩ := @parseFloatQ_digits (c :: tail.takeWhile Char.isDigit) (by simp)
        (by
          intro x hx
          rcases List.mem_cons.mp hx with h | h
          · rw [h]
            exact hc
          · exact htwdig x h)
      refine ⟨v, by rw [hspan]; exact hv, ?_⟩
      have hfin := Scanner.numberFinish_spec
        { s with current := s.start + 1 + (tail.takeWhile Char.isDigit).length }
        (c :: tail.takeWhile Char.isDigit) (by dsimp only; exact hslice1) v hv
      simp only [Scanner.number, hd1, hpeek]
      rw [if_neg hrdot, hfin, hspan]
      have hcnt : s.start + (c :: tail.takeWhile Char.isDigit).length
          = s.start + 1 + (tail.takeWhile Char.isDigit).length := by
        simp only [List.length_cons]
        omega
      rw [hcnt]

/-- Helper: the token list an `add_token` call produces. -/
theorem Scanner.add_token_tokens (tt : TokenType) (lit : Option Literal) (s0 : ScanState) :
    (Scanner.add_token tt lit s0).tokens = s0.tokens
      ++ [Token.mk tt (Scanner.sliceLexeme s0.source s0.start s0.current) lit s0.line] := rfl

set_option maxHeartbeats 2000000 in
/-- Helper: on ASCII text, one `Scanner::scan_token` step from an
in-bounds cursor (with `start` freshly reset to `current`, as the scan
loop does) never panics, preserves the source, strictly advances the
cursor while keeping it in bounds, and only appends tokens. -/
theorem Scanner.scan_token_completes (s : ScanState)
    (hascii : ∀ c ∈ s.source, c.toNat < 128)
    (hstart : s.start = s.current)
    (hcur : s.current < s.source.length) :
    ∃ s', Scanner.scan_token s = some s' ∧ s'.source = s.source ∧
      s.current < s'.current ∧ s'.current ≤ s.source.length ∧
      ∃ ts2, s'.tokens = s.tokens ++ ts2 := by
  have hlen : byteLen s.source = s.source.length := Scanner.byteLen_ascii hascii
  have hget : s.source[s.current]? = some s.source[s.current] := List.getElem?_eq_getElem hcur
  have hadvs : Scanner.advance s = some (s.source[s.current], { s with current := s.current + 1 }) := by
    simp [Scanner.advance, hget]
  simp only [Scanner.scan_token, hadvs]
  by_cases hlp : s.source[s.current] = '('
  · simp only [if_pos hlp]
    exact ⟨_, rfl, rfl, show s.current < s.current + 1 from by omega,
      show s.current + 1 ≤ s.source.length from by omega, _, rfl⟩
  simp only [if_neg hlp]
  by_cases hrp : s.source[s.current] = ')'
  · simp only [if_pos hrp]
    exact ⟨_, rfl, rfl, show s.current < s.current + 1 from by omega,
      show s.current + 1 ≤ s.source.length from by omega, _, rfl⟩
  simp only [if_neg hrp]
  by_cases hlb : s.source[s.current] = '\x7b'
  · simp only [if_pos hlb]
    exact ⟨_, rfl, rfl, show s.current < s.current + 1 from by omega,
      show s.current + 1 ≤ s.source.length from by omega, _, rfl⟩
  simp only [if_neg hlb]
  by_cases hrb : s.source[s.current] = '\x7d'
  · simp only [if_pos hrb]
    exact ⟨_, rfl, rfl, show s.current < s.current + 1 from by omega,
      show s.current + 1 ≤ s.source.length from by omega, _, rfl⟩
  simp only [if_neg hrb]
  by_cases hcm : s.source[s.current] = ','
  · simp only [if_pos hcm]
    exact ⟨_, rfl, rfl, show s.current < s.current + 1 from by omega,
      show s.current + 1 ≤ s.source.length from by omega, _, rfl⟩
  simp only [if_neg hcm]
  by_cases hdot : s.source[s.current] = '.'
  · simp only [if_pos hdot]
    exact ⟨_, rfl, rfl, show s.current < s.current + 1 from by omega,
      show s.current + 1 ≤ s.source.length from by omega, _, rfl⟩
  simp only [if_neg hdot]
  by_cases hmin : s.source[s.current] = '-'
  · simp only [if_pos hmin]
    exact ⟨_, rfl, rfl, show s.current < s.current + 1 from by omega,
      show s.current + 1 ≤ s.source.length from by omega, _, rfl⟩
  simp only [if_neg hmin]
  by_cases hplus : s.source[s.current] = '+'
  · simp only [if_pos hplus]
    exact ⟨_, rfl, rfl, show s.current < s.current + 1 from by omega,
      show s.current + 1 ≤ s.source.length from by omega, _, rfl⟩
  simp only [if_neg hplus]
  by_cases hsemi : s.source[s.current] = ';'
  · simp only [if_pos hsemi]
    exact ⟨_, rfl, rfl, show s.current < s.current + 1 from by omega,
      show s.current + 1 ≤ s.source.length from by omega, _, rfl⟩
  simp only [if_neg hsemi]
  by_cases hstar : s.source[s.current] = '*'
  · simp only [if_pos hstar]
    exact ⟨_, rfl, rfl, show s.current < s.current + 1 from by omega,
      show s.current + 1 ≤ s.source.length from by omega, _, rfl⟩
  simp only [if_neg hstar]
  by_cases hbang : s.source[s.current] = '!'
  · simp only [if_pos hbang]
    obtain ⟨b, s2, hms, hsrc2, htok2, hst2, hln2, hc2a, hc2b⟩ :=
      Scanner.match_second_wf '=' { s with current := s.current + 1 } hascii
        (show s.current + 1 ≤ s.source.length from by omega)
    dsimp only at hsrc2 htok2 hst2 hln2 hc2a hc2b
    cases b
    · simp only [hms]
      refine ⟨_, rfl, hsrc2, ?_, ?_, ?_⟩
      · show s.current < s2.current
        omega
      · show s2.current ≤ s.source.length
        omega
      · rw [Scanner.add_token_tokens, htok2]
        exact ⟨_, rfl⟩
    · simp only [hms]
      refine ⟨_, rfl, hsrc2, ?_, ?_, ?_⟩
      · show s.current < s2.current
        omega
      · show s2.current ≤ s.source.length
        omega
      · rw [Scanner.add_token_tokens, htok2]
        exact ⟨_, rfl⟩
  simp only [if_neg hbang]
  by_cases heqc : s.source[s.current] = '='
  · simp only [if_pos heqc]
    obtain ⟨b, s2, hms, hsrc2, htok2, hst2, hln2, hc2a, hc2b⟩ :=
      Scanner.match_second_wf '=' { s with current := s.current + 1 } hascii
        (show s.current + 1 ≤ s.source.length from by omega)
    dsimp only at hsrc2 htok2 hst2 hln2 hc2a hc2b
    cases b
    · simp only [hms]
      refine ⟨_, rfl, hsrc2, ?_, ?_, ?_⟩
      · show s.current < s2.current
        omega
      · show s2.current ≤ s.source.length
        omega
      · rw [Scanner.add_token_tokens, htok2]
        exact ⟨_, rfl⟩
    · simp only [hms]
      refine ⟨_, rfl, hsrc2, ?_, ?_, ?_⟩
      · show s.current < s2.current
        omega
      · show s2.current ≤ s.source.length
        omega
      · rw [Scanner.add_token_tokens, htok2]
        exact ⟨_, rfl⟩
  simp only [if_neg heqc]
  by_cases hless : s.source[s.current] = '<'
  · simp only [if_pos hless]
    obtain ⟨b, s2, hms, hsrc2, htok2, hst2, hln2, hc2a, hc2b⟩ :=
      Scanner.match_second_wf '=' { s with current := s.current + 1 } hascii
        (show s.current + 1 ≤ s.source.length from by omega)
    dsimp only at hsrc2 htok2 hst2 hln2 hc2a hc2b
    cases b
    · simp only [hms]
      refine ⟨_, rfl, hsrc2, ?_, ?_, ?_⟩
      · show s.current < s2.current
        omega
      · show s2.current ≤ s.source.length
        omega
      · rw [Scanner.add_token_tokens, htok2]
        exact ⟨_, rfl⟩
    · simp only [hms]
      refine ⟨_, rfl, hsrc2, ?_, ?_, ?_⟩
      · show s.current < s2.current
        omega
      · show s2.current ≤ s.source.length
        omega
      · rw [Scanner.add_token_tokens, htok2]
        exact ⟨_, rfl⟩
  simp only [if_neg hless]
  by_cases hgr : s.source[s.current] = '>'
  · simp only [if_pos hgr]
    obtain ⟨b, s2, hms, hsrc2, htok2, hst2, hln2, hc2a, hc2b⟩ :=
      Scanner.match_second_wf '=' { s with current := s.current + 1 } hascii
        (show s.current + 1 ≤ s.source.length from by omega)
    dsimp only at hsrc2 htok2 hst2 hln2 hc2a hc2b
    cases b
    · simp only [hms]
      refine ⟨_, rfl, hsrc2, ?_, ?_, ?_⟩
      · show s.current < s2.current
        omega
      · show s2.current ≤ s.source.length
        omega
      · rw [Scanner.add_token_tokens, htok2]
        exact ⟨_, rfl⟩
    · simp only [hms]
      refine ⟨_, rfl, hsrc2, ?_, ?_, ?_⟩
      · show s.current < s2.current
        omega
      · show s2.current ≤ s.source.length
        omega
      · rw [Scanner.add_token_tokens, htok2]
        exact ⟨_, rfl⟩
  simp only [if_neg hgr]
  by_cases hslash : s.source[s.current] = '/'
  · simp only [if_pos hslash]
    obtain ⟨b, s2, hms, hsrc2, htok2, hst2, hln2, hc2a, hc2b⟩ :=
      Scanner.match_second_wf '/' { s with current := s.current + 1 } hascii
        (show s.current + 1 ≤ s.source.length from by omega)
    dsimp only at hsrc2 htok2 hst2 hln2 hc2a hc2b
    cases b
    · simp only [hms]
      refine ⟨_, rfl, hsrc2, ?_, ?_, ?_⟩
      · show s.current < s2.current
        omega
      · show s2.current ≤ s.source.length
        omega
      · rw [Scanner.add_token_tokens, htok2]
        exact ⟨_, rfl⟩
    · simp only [hms]
      obtain ⟨s3, hcl, hsrc3, htok3, hst3, hln3, hc3a, hc3b⟩ :=
        Scanner.commentLoop_wf (byteLen s2.source + 1) s2
          (by rw [hsrc2]; exact hascii)
          (by rw [hsrc2]; omega)
      simp only [hcl]
      refine ⟨s3, rfl, by rw [hsrc3, hsrc2], ?_, ?_, [], by rw [htok3, htok2]; simp⟩
      · omega
      · have hb := hc3b (by rw [hsrc2]; omega)
        rw [hsrc2] at hb
        omega
  simp only [if_neg hslash]
  by_cases hquote : s.source[s.current] = '"'
  · simp only [if_pos hquote]
    obtain ⟨s1q, hsl, hsrcq, htokq, hstq, hcqa, hcqb⟩ :=
      Scanner.stringLoop_wf (byteLen s.source + 1) { s with current := s.current + 1 } hascii
        (show s.source.length - (s.current + 1) < byteLen s.source + 1 from by omega)
    dsimp only at hsrcq htokq hstq hcqa hcqb
    have hcqb2 : s1q.current ≤ s.source.length := hcqb (by omega)
    cases hae : Scanner.is_at_end s1q
    · have hltq : s1q.current < s1q.source.length := by
        simp only [Scanner.is_at_end, decide_eq_false_iff_not, not_le] at hae
        rw [hsrcq]
        rw [hsrcq, Scanner.byteLen_ascii hascii] at hae
        exact hae
      have hadvq : Scanner.advance s1q = some (s1q.source[s1q.current],
          { s1q with current := s1q.current + 1 }) := by
        simp [Scanner.advance, List.getElem?_eq_getElem hltq]
      simp only [Scanner.string, hsl, hae, Bool.false_eq_true, if_false, hadvq]
      refine ⟨_, rfl, hsrcq, ?_, ?_, ?_⟩
      · show s.current < s1q.current + 1
        omega
      · show s1q.current + 1 ≤ s.source.length
        rw [hsrcq] at hltq
        omega
      · rw [Scanner.add_token_tokens, show ({ s1q with current := s1q.current + 1 } : ScanState).tokens
          = s1q.tokens from rfl, htokq]
        exact ⟨_, rfl⟩
    · simp only [Scanner.string, hsl, hae, if_true]
      refine ⟨s1q, rfl, hsrcq, ?_, ?_, [], by rw [htokq]; simp⟩
      · omega
      · omega
  simp only [if_neg hquote]
  by_cases hdig : (s.source[s.current]).isDigit = true
  · simp only [if_pos hdig]
    have hdc : s.source.drop s.start = s.source[s.current] :: s.source.drop (s.current + 1) := by
      rw [hstart]
      exact List.drop_eq_getElem_cons hcur
    obtain ⟨v, hv, hnum⟩ := Scanner.number_spec { s with current := s.current + 1 } hascii
      (s.source[s.current]) (s.source.drop (s.current + 1)) hdc
      (show s.current + 1 = s.start + 1 from by omega) hdig
    simp only [hnum]
    have hp := @numeralSpan_pos (s.source[s.current]) (s.source.drop (s.current + 1)) hdig
    have hle := numeralSpan_length_le (s.source[s.current] :: s.source.drop (s.current + 1))
    have hconslen : (s.source[s.current] :: s.source.drop (s.current + 1)).length
        = s.source.length - s.current := by
      rw [← List.drop_eq_getElem_cons hcur]
      exact List.length_drop s.current s.source
    refine ⟨_, rfl, rfl, ?_, ?_, _, rfl⟩
    · show s.current < s.start + (numeralSpan (s.source[s.current] :: s.source.drop (s.current + 1))).length
      omega
    · show s.start + (numeralSpan (s.source[s.current] :: s.source.drop (s.current + 1))).length ≤ s.source.length
      omega
  simp only [if_neg hdig]
  by_cases halpha : (s.source[s.current]).isAlpha = true
  · simp only [if_pos halpha]
    obtain ⟨s1a, hil, hsrca, htoka, hsta, hlna, hcaa, hcab⟩ :=
      Scanner.identifierLoop_wf (byteLen s.source + 1) { s with current := s.current + 1 } hascii
        (show s.source.length - (s.current + 1) < byteLen s.source + 1 from by omega)
    dsimp only at hsrca htoka hsta hlna hcaa hcab
    simp only [Scanner.identifier, hil]
    refine ⟨_, rfl, hsrca, ?_, ?_, ?_⟩
    · show s.current < s1a.current
      omega
    · show s1a.current ≤ s.source.length
      have := hcab (by omega)
      omega
    · rw [Scanner.add_token_tokens, htoka]
      exact ⟨_, rfl⟩
  simp only [if_neg halpha]
  by_cases hws : s.source[s.current] = ' ' ∨ s.source[s.current] = '\t' ∨ s.source[s.current] = '\r'
  · simp only [if_pos hws]
    exact ⟨_, rfl, rfl, show s.current < s.current + 1 from by omega,
      show s.current + 1 ≤ s.source.length from by omega, [], by simp⟩
  simp only [if_neg hws]
  by_cases hnl : s.source[s.current] = '\n'
  · simp only [if_pos hnl]
    exact ⟨_, rfl, rfl, show s.current < s.current + 1 from by omega,
      show s.current + 1 ≤ s.source.length from by omega, [], by simp⟩
  simp only [if_neg hnl]
  exact ⟨_, rfl, rfl, show s.current < s.current + 1 from by omega,
    show s.current + 1 ≤ s.source.length from by omega, [], by simp⟩

/-- Helper: a digit differs from any non-digit character. -/
theorem digit_ne (c : Char) (h : c.isDigit = true) (ch : Char) (hch : ch.isDigit = false) :
    ¬ (c = ch) := by
  intro he
  rw [he] at h
  rw [h] at hch
  cases hch

/-- Helper: on ASCII text the whole scan loop of `Scanner::scan_tokens`
runs to completion from any in-bounds cursor, only appending tokens. -/
theorem Scanner.scan_go_completes : ∀ (fuel : Nat) (s : ScanState),
    (∀ c ∈ s.source, c.toNat < 128) →
    s.current ≤ s.source.length →
    s.source.length - s.current < fuel →
    ∃ more, Scanner.scan_tokens_go fuel s = some (s.tokens ++ more) := by
  intro fuel
  induction fuel with
  | zero =>
    intro s h1 h2 h3
    exact absurd h3 (by omega)
  | succ fuel ih =>
    intro s hascii hcur hfuel
    have hlen : byteLen s.source = s.source.length := Scanner.byteLen_ascii hascii
    by_cases hend : byteLen s.source ≤ s.current
    · refine ⟨[Token.mk TokenType.Eof ("") none s.line], ?_⟩
      simp only [Scanner.scan_tokens_go]
      rw [if_pos hend]
    · have hlt : s.current < s.source.length := by omega
      obtain ⟨s', hstep, hsrc', hgt', hle', ts2, htoks'⟩ :=
        Scanner.scan_token_completes { s with start := s.current } hascii rfl hlt
      dsimp only at hsrc' hgt' hle' htoks'
      obtain ⟨more, hrec⟩ := ih s' (by rw [hsrc']; exact hascii)
        (by rw [hsrc']; exact hle') (by rw [hsrc']; omega)
      refine ⟨ts2 ++ more, ?_⟩
      simp only [Scanner.scan_tokens_go, hstep]
      rw [if_neg hend, hrec, htoks']
      simp [List.append_assoc]

/-- Helper: the span the scanner's `number` consumes out of a valid
numeral followed by non-extending text is exactly the numeral. -/
theorem numeralSpan_exact (intg frac s : List Char)
    (hintgd : ∀ c ∈ intg, c.isDigit = true)
    (hfrac : frac = [] ∨ (frac ≠ [] ∧ ∀ c ∈ frac, c.isDigit = true))
    (hs1 : ∀ c, s.head? = some c → c.isDigit = false)
    (hs2 : frac = [] → s.head? = some '.' → ∀ c2, s.tail.head? = some c2 → c2.isDigit = false) :
    numeralSpan ((intg ++ (if frac = [] then [] else '.' :: frac)) ++ s)
      = intg ++ (if frac = [] then [] else '.' :: frac) := by
  rcases hfrac with hfe | ⟨hfne, hfd⟩
  · subst hfe
    rw [if_pos (rfl : ([] : List Char) = [])]
    simp only [List.append_nil]
    cases s with
    | nil =>
      rw [List.append_nil]
      have ht : intg.takeWhile Char.isDigit = intg := List.takeWhile_eq_self_iff.mpr hintgd
      have hd : intg.dropWhile Char.isDigit = [] := List.dropWhile_eq_nil_iff.mpr hintgd
      simp only [numeralSpan, ht, hd]
    | cons c0 s1 =>
      have hc0 : c0.isDigit = false := hs1 c0 rfl
      obtain ⟨ht, hd⟩ := @takeWhile_append_not Char.isDigit intg c0 s1 hintgd hc0
      simp only [numeralSpan, ht, hd]
      by_cases hc0dot : c0 = '.'
      · subst hc0dot
        have hs1tw : s1.takeWhile Char.isDigit = [] := by
          cases s1 with
          | nil => rfl
          | cons c2 s2 =>
            have hc2 : c2.isDigit = false := hs2 rfl rfl c2 rfl
            rw [List.takeWhile_cons Char.isDigit c2 s2]
            rw [if_neg (by simp [hc2])]
        show (if List.takeWhile Char.isDigit s1 = [] then intg
          else intg ++ '.' :: List.takeWhile Char.isDigit s1) = intg
        rw [if_pos hs1tw]
      · split
        · rename_i rest heq
          injection heq with h1 h2
          exact absurd h1 hc0dot
        · rfl
  · simp only [if_neg hfne]
    have hassoc : (intg ++ '.' :: frac) ++ s = intg ++ '.' :: (frac ++ s) := by simp
    rw [hassoc]
    obtain ⟨ht, hd⟩ := @takeWhile_append_not Char.isDigit intg '.' (frac ++ s) hintgd (by decide)
    simp only [numeralSpan, ht, hd]
    have htw2 : (frac ++ s).takeWhile Char.isDigit = frac := by
      cases s with
      | nil =>
        rw [List.append_nil]
        exact List.takeWhile_eq_self_iff.mpr hfd
      | cons c0 s1 =>
        exact (@takeWhile_append_not Char.isDigit frac c0 s1 hfd (hs1 c0 rfl)).1
    show (if List.takeWhile Char.isDigit (frac ++ s) = [] then intg
      else intg ++ '.' :: List.takeWhile Char.isDigit (frac ++ s)) = intg ++ '.' :: frac
    rw [htw2, if_neg hfne]

/-- C9: scanning a source that starts with a valid numeric literal `N`
(a nonempty digit run, optionally followed by `.` and a nonempty digit
run), followed by text that cannot extend the numeral (its first character
is not a digit, and — when `N` has no fraction — not a `.` followed by a
digit, so a trailing dot is never consumed), emits as its first token a
number token whose lexeme is exactly `N` and whose literal is
`Number(parse_float(N))`. -/
theorem number_lexeme_and_literal_exact
    (intg frac s : List Char) (N : List Char)
    (hintg : intg ≠ []) (hintgd : ∀ c ∈ intg, c.isDigit = true)
    (hfrac : frac = [] ∨ (frac ≠ [] ∧ ∀ c ∈ frac, c.isDigit = true))
    (hN : N = intg ++ (if frac = [] then [] else '.' :: frac))
    (hs : ∀ c ∈ s, c.toNat < 128)
    (hs1 : ∀ c, s.head? = some c → c.isDigit = false)
    (hs2 : frac = [] → s.head? = some '.' → ∀ c2, s.tail.head? = some c2 → c2.isDigit = false) :
    ∃ t rest, Scanner.scan_tokens (String.mk (N ++ s)) = some (t :: rest) ∧
      t.token_type = TokenType.Number ∧
      t.lexeme = String.mk N ∧
      t.literal = (parseFloatQ N).map Literal.Number := by
  have hspanN : numeralSpan (N ++ s) = N := by
    rw [hN]
    rw [show (intg ++ (if frac = [] then [] else '.' :: frac)) ++ s
      = (intg ++ (if frac = [] then [] else '.' :: frac)) ++ s from rfl]
    exact numeralSpan_exact intg frac s hintgd hfrac hs1 hs2
  have hNascii : ∀ c ∈ N, c.toNat < 128 := by
    rw [hN]
    intro c hc
    rcases List.mem_append.mp hc with h | h
    · exact Scanner.digit_ascii (hintgd c h)
    · rcases hfrac with hfe | ⟨hfne, hfd⟩
      · rw [hfe] at h
        simp at h
      · rw [if_neg hfne] at h
        rcases List.mem_cons.mp h with h1 | h1
        · rw [h1]
          decide
        · exact Scanner.digit_ascii (hfd c h1)
  have hcsascii : ∀ c ∈ N ++ s, c.toNat < 128 := by
    intro c hc
    rcases List.mem_append.mp hc with h | h
    · exact hNascii c h
    · exact hs c h
  have hbl : byteLen (N ++ s) = (N ++ s).length := Scanner.byteLen_ascii hcsascii
  cases intg with
  | nil => exact absurd rfl hintg
  | cons c0 intg1 =>
    have hc0 : c0.isDigit = true := hintgd c0 (by simp)
    have hcs : N ++ s = c0 :: (intg1 ++ ((if frac = [] then [] else '.' :: frac) ++ s)) := by
      rw [hN]
      simp
    have hNlen : 0 < N.length := by
      rw [hN]
      simp
    have hg0 : (N ++ s)[0]? = some c0 := by
      rw [hcs]
      simp
    have hadv0 : Scanner.advance ⟨N ++ s, [], 0, 0, 1⟩ = some (c0, ⟨N ++ s, [], 0, 1, 1⟩) := by
      simp [Scanner.advance, hg0]
    have hstep : Scanner.scan_token ⟨N ++ s, [], 0, 0, 1⟩ = Scanner.number ⟨N ++ s, [], 0, 1, 1⟩ := by
      simp only [Scanner.scan_token, hadv0]
      rw [if_neg (digit_ne c0 hc0 '(' (by decide)),
          if_neg (digit_ne c0 hc0 ')' (by decide)),
          if_neg (digit_ne c0 hc0 '\x7b' (by decide)),
          if_neg (digit_ne c0 hc0 '\x7d' (by decide)),
          if_neg (digit_ne c0 hc0 ',' (by decide)),
          if_neg (digit_ne c0 hc0 '.' (by decide)),
          if_neg (digit_ne c0 hc0 '-' (by decide)),
          if_neg (digit_ne c0 hc0 '+' (by decide)),
          if_neg (digit_ne c0 hc0 ';' (by decide)),
          if_neg (digit_ne c0 hc0 '*' (by decide)),
          if_neg (digit_ne c0 hc0 '!' (by decide)),
          if_neg (digit_ne c0 hc0 '=' (by decide)),
          if_neg (digit_ne c0 hc0 '<' (by decide)),
          if_neg (digit_ne c0 hc0 '>' (by decide)),
          if_neg (digit_ne c0 hc0 '/' (by decide)),
          if_neg (digit_ne c0 hc0 '"' (by decide)),
          if_pos hc0]
    obtain ⟨v, hv, hnum⟩ := Scanner.number_spec ⟨N ++ s, [], 0, 1, 1⟩ hcsascii c0
      (intg1 ++ ((if frac = [] then [] else '.' :: frac) ++ s))
      (show (N ++ s).drop 0 = _ from by rw [List.drop_zero]; exact hcs)
      rfl hc0
    rw [show c0 :: (intg1 ++ ((if frac = [] then [] else '.' :: frac) ++ s)) = N ++ s
      from hcs.symm] at hv hnum
    rw [hspanN] at hv hnum
    dsimp only at hnum
    obtain ⟨more, hrest⟩ := Scanner.scan_go_completes (byteLen (N ++ s))
      { source := N ++ s, tokens := [] ++ [Token.mk TokenType.Number (String.mk N)
          (some (Literal.Number v)) 1], start := 0, current := 0 + N.length, line := 1 }
      hcsascii
      (by
        dsimp only
        simp only [List.length_append]
        omega)
      (by
        dsimp only
        rw [hbl]
        simp only [List.length_append]
        omega)
    refine ⟨Token.mk TokenType.Number (String.mk N) (some (Literal.Number v)) 1, more, ?_, rfl, rfl, ?_⟩
    · have hT : Scanner.scan_tokens (String.mk (N ++ s))
          = Scanner.scan_tokens_go (byteLen (N ++ s) + 1) ⟨N ++ s, [], 0, 0, 1⟩ := rfl
      rw [hT]
      have hne0 : ¬ (byteLen (N ++ s) ≤ 0) := by
        rw [hbl]
        simp only [List.length_append]
        omega
      simp only [Scanner.scan_tokens_go, hstep, hnum]
      rw [if_neg hne0, hrest]
      rfl
    · rw [hv]
      rfl

/-- Witness for the C9 theorem: the source "12.5;" scans to a leading Number
token whose lexeme is exactly "12.5" and whose literal is parseFloatQ "12.5". -/
theorem number_lexeme_and_literal_exact_witness :
    ∃ t rest,
      Scanner.scan_tokens (String.mk (['1', '2', '.', '5'] ++ [';'])) = some (t :: rest) ∧
      t.token_type = TokenType.Number ∧
      t.lexeme = String.mk ['1', '2', '.', '5'] ∧
      t.literal = (parseFloatQ ['1', '2', '.', '5']).map Literal.Number :=
  number_lexeme_and_literal_exact ['1', '2'] ['5'] [';'] ['1', '2', '.', '5']
    (by decide) (by decide) (Or.inr ⟨by decide, by decide⟩) (by decide) (by decide)
    (by
      intro c hc
      rw [show ([';'] : List Char).head? = some ';' from rfl] at hc
      injection hc with h
      rw [← h]
      decide)
    (by
      intro h
      exact absurd h (by decide))

end Lox
